import Mathlib

/-!
Verification of the grit monorepo build orchestrator (`cmd/build.go` and the
configuration data model of `pkg/grit`).

The Go code is shallowly embedded as executable Lean definitions:

* Go `map` values are modelled as association lists / finite functions built by
  successive insertion; where Go iterates over a map (an order the Go spec
  leaves unspecified) the model iterates in first-insertion order.
* Go machine integers are modelled as `Nat`/`Int` (Go `int` in this code never
  overflows on realistic inputs, and the only arithmetic is counter
  increments/decrements, so no wrap-around modelling is needed; decrementable
  counters are `Int` because Go's `inDegree[x]--` may go below zero).
* File-system and subprocess effects are passed in explicitly: the result of
  reading a cache file, of hashing a package directory, of parsing a config
  file and of running the build command are fields of an environment record,
  so `executeBuild` becomes a pure function of the package and its
  environment.
* Go's recursion on shared mutable visited sets (`propagateDirtiness`) and the
  worklist loop of Kahn's algorithm are given an explicit fuel argument; the
  fuel chosen by the callers is proved sufficient, mirroring the termination
  argument that is implicit in the Go code.
-/

/-! ## Data model (`pkg/grit/package.go`) -/

/-- `grit.Package`: the `package:` section of a package's `grit.yaml`. -/
structure Package where
  name : String
  version : String
  dependencies : List String
  hash : String
  path : String
deriving DecidableEq, Repr

/-- `grit.TypeConfig`: the config for a package type. -/
structure TypeConfig where
  packageDir : String
  buildDir : String
  coverageDir : String
  targets : List (String × String)
  canDependOn : List String
deriving DecidableEq, Repr

/-- `grit.Config`: a package's `grit.yaml` file. -/
structure Config where
  targets : List (String × String)
  package : Package
deriving DecidableEq, Repr

/-- `grit.RootConfig`: the root `grit.yaml` config file (the `repo` section is
irrelevant to the build engine and omitted). -/
structure RootConfig where
  targets : List (String × String)
  types : List (String × TypeConfig)
deriving DecidableEq, Repr

/-! ## SHA-256 (Go `crypto/sha256`), over `Nat` bytes and words -/

/-- One 32-bit word, kept as a `Nat` reduced mod `2^32`. -/
def w32 (x : Nat) : Nat := x % 4294967296

/-- 32-bit right rotation. -/
def rotr32 (x n : Nat) : Nat := w32 ((x >>> n) ||| (x <<< (32 - n)))

/-- The SHA-256 round constants. -/
def sha256K : List Nat :=
  [0x428A2F98, 0x71374491, 0xB5C0FBCF, 0xE9B5DBA5, 0x3956C25B, 0x59F111F1, 0x923F82A4, 0xAB1C5ED5,
   0xD807AA98, 0x12835B01, 0x243185BE, 0x550C7DC3, 0x72BE5D74, 0x80DEB1FE, 0x9BDC06A7, 0xC19BF174,
   0xE49B69C1, 0xEFBE4786, 0x0FC19DC6, 0x240CA1CC, 0x2DE92C6F, 0x4A7484AA, 0x5CB0A9DC, 0x76F988DA,
   0x983E5152, 0xA831C66D, 0xB00327C8, 0xBF597FC7, 0xC6E00BF3, 0xD5A79147, 0x06CA6351, 0x14292967,
   0x27B70A85, 0x2E1B2138, 0x4D2C6DFC, 0x53380D13, 0x650A7354, 0x766A0ABB, 0x81C2C92E, 0x92722C85,
   0xA2BFE8A1, 0xA81A664B, 0xC24B8B70, 0xC76C51A3, 0xD192E819, 0xD6990624, 0xF40E3585, 0x106AA070,
   0x19A4C116, 0x1E376C08, 0x2748774C, 0x34B0BCB5, 0x391C0CB3, 0x4ED8AA4A, 0x5B9CCA4F, 0x682E6FF3,
   0x748F82EE, 0x78A5636F, 0x84C87814, 0x8CC70208, 0x90BEFFFA, 0xA4506CEB, 0xBEF9A3F7, 0xC67178F2]

/-- The SHA-256 initial hash value. -/
def sha256H0 : List Nat :=
  [0x6A09E667, 0xBB67AE85, 0x3C6EF372, 0xA54FF53A, 0x510E527F, 0x9B05688C, 0x1F83D9AB, 0x5BE0CD19]

/-- Big-endian byte decomposition of a value into `n` bytes. -/
def beBytes (n v : Nat) : List Nat :=
  (List.range n).map (fun i => (v >>> (8 * (n - 1 - i))) % 256)

/-- SHA-256 message schedule: extend the 16 block words to 64 words. -/
def sha256schedule (ws : List Nat) : List Nat :=
  (List.range 48).foldl
    (fun w _ =>
      let n := w.length
      let s0 :=
        (rotr32 (w.getD (n - 15) 0) 7) ^^^ (rotr32 (w.getD (n - 15) 0) 18) ^^^
          ((w.getD (n - 15) 0) >>> 3)
      let s1 :=
        (rotr32 (w.getD (n - 2) 0) 17) ^^^ (rotr32 (w.getD (n - 2) 0) 19) ^^^
          ((w.getD (n - 2) 0) >>> 10)
      w ++ [w32 (w.getD (n - 16) 0 + s0 + w.getD (n - 7) 0 + s1)])
    ws

/-- One SHA-256 compression of a 64-byte block into the running hash. -/
def sha256compress (h : List Nat) (block : List Nat) : List Nat :=
  let ws0 := (List.range 16).map (fun i =>
    (block.getD (4 * i) 0) <<< 24 + (block.getD (4 * i + 1) 0) <<< 16 +
      (block.getD (4 * i + 2) 0) <<< 8 + block.getD (4 * i + 3) 0)
  let ws := sha256schedule ws0
  let st := (sha256K.zip ws).foldl
    (fun st kw =>
      match st with
      | (a, b, c, d, e, f, g, hh) =>
        let s1 := (rotr32 e 6) ^^^ (rotr32 e 11) ^^^ (rotr32 e 25)
        let ch := (e &&& f) ^^^ ((4294967295 ^^^ e) &&& g)
        let t1 := w32 (hh + s1 + ch + kw.1 + kw.2)
        let s0 := (rotr32 a 2) ^^^ (rotr32 a 13) ^^^ (rotr32 a 22)
        let mj := (a &&& b) ^^^ (a &&& c) ^^^ (b &&& c)
        let t2 := w32 (s0 + mj)
        (w32 (t1 + t2), a, b, c, w32 (d + t1), e, f, g))
    (h.getD 0 0, h.getD 1 0, h.getD 2 0, h.getD 3 0,
     h.getD 4 0, h.getD 5 0, h.getD 6 0, h.getD 7 0)
  match st with
  | (a, b, c, d, e, f, g, hh) =>
    [w32 (h.getD 0 0 + a), w32 (h.getD 1 0 + b), w32 (h.getD 2 0 + c), w32 (h.getD 3 0 + d),
     w32 (h.getD 4 0 + e), w32 (h.getD 5 0 + f), w32 (h.getD 6 0 + g), w32 (h.getD 7 0 + hh)]

/-- SHA-256 padding: a `1` bit, zeros, and the 64-bit big-endian bit length. -/
def sha256pad (msg : List Nat) : List Nat :=
  let L := msg.length
  let k := (64 + 56 - ((L + 1) % 64)) % 64
  msg ++ [0x80] ++ List.replicate k 0 ++ beBytes 8 (8 * L)

/-- Split a byte list into 64-byte chunks (structural fuel recursion; one
fuel unit per chunk, so `l.length + 1` units always suffice). -/
def chunksAux : Nat → List Nat → List (List Nat)
  | 0, _ => []
  | fuel + 1, l => if l = [] then [] else l.take 64 :: chunksAux fuel (l.drop 64)

/-- Split a byte list into 64-byte chunks. -/
def chunks64 (l : List Nat) : List (List Nat) := chunksAux (l.length + 1) l

/-- SHA-256 of a byte string, as the list of 32 digest bytes. -/
def sha256bytes (msg : List Nat) : List Nat :=
  let final := (chunks64 (sha256pad msg)).foldl sha256compress sha256H0
  final.foldr (fun word acc => beBytes 4 word ++ acc) []

/-- UTF-8 encoding of one character (Go strings are UTF-8 byte strings). -/
def utf8Bytes (c : Char) : List Nat :=
  let n := c.toNat
  if n < 0x80 then [n]
  else if n < 0x800 then [0xC0 ||| (n >>> 6), 0x80 ||| (n &&& 0x3F)]
  else if n < 0x10000 then
    [0xE0 ||| (n >>> 12), 0x80 ||| ((n >>> 6) &&& 0x3F), 0x80 ||| (n &&& 0x3F)]
  else
    [0xF0 ||| (n >>> 18), 0x80 ||| ((n >>> 12) &&& 0x3F), 0x80 ||| ((n >>> 6) &&& 0x3F),
     0x80 ||| (n &&& 0x3F)]

/-- The UTF-8 bytes of a string. -/
def strBytes (s : String) : List Nat := s.data.flatMap utf8Bytes

/-- Lowercase hex digit. -/
def hexDigit (n : Nat) : Char :=
  if n < 10 then Char.ofNat (48 + n) else Char.ofNat (87 + n)

/-- Lowercase hex rendering of a byte list (Go `fmt.Sprintf "%x"` on a
byte slice). -/
def bytesToHex (bs : List Nat) : String :=
  String.mk (bs.flatMap (fun b => [hexDigit (b / 16), hexDigit (b % 16)]))

/-- Hex-encoded SHA-256 of a string: `sha256.New(); Write(s); Sum(nil)`
rendered with `%x`. -/
def sha256hex (s : String) : String := bytesToHex (sha256bytes (strBytes s))

/-! ## `calculatePackageHash` (`cmd/build.go:448`)

The `filepath.Walk` over the package directory yields, for every non-hidden
regular file, a `(relative path, size, modification time)` triple, in whatever
order the walk visits files.  The function below is the pure remainder of
`calculatePackageHash`: it consumes that visit list. -/

/-- The data `filepath.Walk` yields for one non-hidden file of the package
directory: relative path, `info.Size()` and `info.ModTime().UnixNano()`. -/
structure WalkedFile where
  relPath : String
  size : Int
  modTimeNanos : Int
deriving DecidableEq, Repr

/-- `fmt.Sprintf "%s:%d:%d" relPath size modTime` for one file. -/
def fileInfoLine (f : WalkedFile) : String :=
  f.relPath ++ ":" ++ toString f.size ++ ":" ++ toString f.modTimeNanos

/-- `calculatePackageHash`: format each visited file's metadata, sort the
lines (`sort.Strings`, i.e. the unique `≤`-sorted permutation, here realised
by insertion sort), join with `"|"` and hash with SHA-256. -/
def calculatePackageHash (visited : List WalkedFile) : String :=
  let fileInfos := visited.map fileInfoLine
  let sorted := fileInfos.insertionSort (· ≤ ·)
  let allInfos := String.intercalate "|" sorted
  sha256hex allInfos

/-! ## Dependency resolver (`resolveDependencies`, `cmd/build.go:240`) -/

/-- The `nodeMap` Go map: built by inserting every config under its package
name (a later config with the same name overwrites an earlier one, as a Go
map write does). -/
def nodeMapOf (packages : List Config) : String → Option Config :=
  packages.foldl
    (fun m cfg => fun k => if k = cfg.package.name then some cfg else m k)
    (fun _ => none)

/-- The key set of the `graph`/`nodeMap` maps: every package name, once.
(Go map iteration order is unspecified; the model fixes an order.) -/
def graphKeys (packages : List Config) : List String :=
  (packages.map (·.package.name)).dedup

/-- A dependency name resolves iff it is a key of `nodeMap`
(`if _, exists := nodeMap[depName]; !exists { continue }`). -/
def depResolvable (packages : List Config) (depName : String) : Bool :=
  (nodeMapOf packages depName).isSome

/-- The adjacency list `graph[n]`: the resolvable dependencies appended, in
declaration order, by every config named `n` (missing dependencies are
dropped with a warning). -/
def graphAdj (packages : List Config) (n : String) : List String :=
  (packages.filter (fun cfg => cfg.package.name = n)).flatMap
    (fun cfg => cfg.package.dependencies.filter (depResolvable packages))

/-- The initial `inDegree` counter of a node: one increment per resolvable
dependency occurrence targeting it (`inDegree[depName]++`). -/
def inDegreeInit (packages : List Config) (n : String) : Nat :=
  ((packages.flatMap
      (fun cfg => cfg.package.dependencies.filter (depResolvable packages))).count n)

/-- The inner loop body of Kahn's algorithm: walk a neighbour list,
decrementing each neighbour's counter and enqueueing every neighbour whose
counter reaches exactly zero. -/
def kahnFold (ds : List String) (inDeg : String → Int) (queue : List String) :
    (String → Int) × List String :=
  ds.foldl
    (fun p nb =>
      let d := p.1 nb - 1
      ((fun k => if k = nb then d else p.1 k), if d = 0 then p.2 ++ [nb] else p.2))
    (inDeg, queue)

/-- Processing one popped node: decrement the counter of each neighbour,
enqueueing every neighbour whose counter reaches zero. -/
def kahnVisit (packages : List Config) (node : String) (inDeg : String → Int)
    (queue : List String) : (String → Int) × List String :=
  kahnFold (graphAdj packages node) inDeg queue

/-- The worklist loop of Kahn's algorithm.  The fuel argument makes the
recursion structural; `resolveDependencies` passes enough fuel that the loop
always ends by emptying its queue (proved below), matching the Go loop
`for len(queue) > 0`. -/
def kahnLoop (packages : List Config) :
    Nat → List String → (String → Int) → List Config → List Config
  | 0, _, _, order => order
  | fuel + 1, queue, inDeg, order =>
    match queue with
    | [] => order
    | node :: rest =>
      let order' := order ++ (nodeMapOf packages node).toList
      let st := kahnVisit packages node inDeg rest
      kahnLoop packages fuel st.2 st.1 order'

/-- `resolveDependencies`: Kahn's algorithm over the dependency graph; if the
queue empties before every package is ordered a cycle exists, and the
remaining packages are appended in catalog order with a warning; the result
is reversed to obtain the dependency-first build order. -/
def resolveDependencies (packages : List Config) : List Config :=
  let ks := graphKeys packages
  let q0 := ks.filter (fun n => inDegreeInit packages n = 0)
  let order := kahnLoop packages ks.length q0
    (fun n => (inDegreeInit packages n : Int)) []
  let order2 :=
    if order.length ≠ packages.length then
      order ++
        (ks.filter (fun n => !(order.any (fun cfg => cfg.package.name = n)))).filterMap
          (nodeMapOf packages)
    else order
  order2.reverse

/-- The `order` local of `resolveDependencies` as the Kahn loop leaves it,
before the cycle fallback and the final reversal. -/
def kahnOrder (packages : List Config) : List Config :=
  kahnLoop packages (graphKeys packages).length
    ((graphKeys packages).filter (fun n => inDegreeInit packages n = 0))
    (fun n => (inDegreeInit packages n : Int)) []

/-- `getPackageNames`: the non-empty package names, in order. -/
def getPackageNames (configs : List Config) : List String :=
  (configs.filter (fun cfg => cfg.package.name ≠ "")).map (·.package.name)

/-! ## Stage scheduler (`groupPackagesByLevel`, `cmd/build.go:519`) -/

/-- The `dependsOn` map: for a non-root package name, the set of its declared
dependency names (`map[string]bool`; membership is all that is consumed). -/
def dependsOnOf (buildOrder : List Config) (n : String) : List String :=
  (buildOrder.filter
      (fun cfg => cfg.package.name = n ∧ cfg.package.name ≠ "")).flatMap
    (fun cfg => cfg.package.dependencies)

/-- The size of `dependedOnBy[n]`: how many distinct non-root packages declare
`n` as a dependency (used only by the intra-stage ordering heuristic). -/
def dependentCount (buildOrder : List Config) (n : String) : Nat :=
  (buildOrder.filter
      (fun cfg => cfg.package.name ≠ "" ∧ n ∈ cfg.package.dependencies)).length

/-- One round of the scheduler: pick every remaining package with no
dependency still remaining (`canBuild`); if that picks nothing while packages
remain, force the first remaining package in (cycle break, with a warning);
order the stage by descending dependent count (`sort.Slice`); also return the
remaining set with the stage's packages deleted.  Returns
`(sorted stage, new remaining)`. -/
def groupStep (dependsOn : String → List String) (cnt : String → Nat)
    (remaining : List Config) : List Config × List Config :=
  let names := remaining.map (·.package.name)
  let cand := remaining.filter
    (fun cfg => (dependsOn cfg.package.name).all (fun d => !(names.contains d)))
  let currentLevel := if cand.isEmpty then remaining.take 1 else cand
  (currentLevel.insertionSort (fun a b => cnt b.package.name ≤ cnt a.package.name),
   remaining.filter
     (fun cfg => !((currentLevel.map (·.package.name)).contains cfg.package.name)))

/-- The `for len(remaining) > 0` loop of `groupPackagesByLevel`, with a fuel
argument making the recursion structural.  Every round removes at least one
package from `remaining` (proved below), so the `remaining.length` fuel
passed by `groupPackagesByLevel` always suffices to drain it — the Go loop's
termination argument. -/
def groupLoop (dependsOn : String → List String) (cnt : String → Nat) :
    Nat → List Config → List (List Config)
  | 0, _ => []
  | fuel + 1, remaining =>
    if remaining = [] then []
    else
      (groupStep dependsOn cnt remaining).1 ::
        groupLoop dependsOn cnt fuel (groupStep dependsOn cnt remaining).2

/-- `groupPackagesByLevel`: stage the (non-root) packages of the build order.
The `remaining` map is initialised with every non-root config. -/
def groupPackagesByLevel (buildOrder : List Config) : List (List Config) :=
  groupLoop (dependsOnOf buildOrder) (dependentCount buildOrder)
    (buildOrder.filter (fun cfg => cfg.package.name ≠ "")).length
    (buildOrder.filter (fun cfg => cfg.package.name ≠ ""))

/-! ## Dirty tracker (`buildCmd`'s `--dirty` pre-filter, `cmd/build.go:57`,
and `propagateDirtiness`, `cmd/build.go:507`) -/

/-- The `reverseDeps` map: `reverseDeps[depName]` collects, in catalog order,
the name of every config that declares `depName` as a dependency (one entry
per declaration occurrence, root config included — the Go loop does not skip
it). -/
def reverseDepsOf (packages : List Config) : String → List String :=
  packages.foldl
    (fun m cfg =>
      cfg.package.dependencies.foldl
        (fun m' depName =>
          fun k => if k = depName then m' k ++ [cfg.package.name] else m' k)
        m)
    (fun _ => [])

/-- The `directlyDirty` set, as a list in catalog order: every non-root
package whose hash computation fails, whose cache entry is unreadable, or
whose cache entry differs from the fresh hash.  `hashOf` is the outcome of
`calculatePackageHash` on the package's directory and `cacheOf` the outcome
of reading its cache file. -/
def directlyDirtyList (packages : List Config)
    (hashOf : Config → Except String String)
    (cacheOf : Config → Option String) : List String :=
  packages.foldl
    (fun acc cfg =>
      if cfg.package.name = "" then acc
      else
        match hashOf cfg with
        | .error _ => acc ++ [cfg.package.name]
        | .ok newHash =>
          match cacheOf cfg with
          | none => acc ++ [cfg.package.name]
          | some cachedHash =>
            if cachedHash ≠ newHash then acc ++ [cfg.package.name] else acc)
    []

/-- `propagateDirtiness`, made structural with a depth fuel: for every
depender of the current package that is not yet marked, mark it and recurse
into it; the shared `allDirty` visited set threads through sequentially.
`propagateVisit fuel rd worklist allDirty` walks the depender list of one
node.  Each recursive descent consumes one fuel unit and strictly grows
`allDirty`, so any fuel exceeding the number of package names is enough for
the fuel never to run out (proved below), which is exactly the Go
termination argument. -/
def propagateVisit (rd : String → List String) :
    Nat → List String → List String → List String
  | _, [], allDirty => allDirty
  | fuel, depender :: rest, allDirty =>
    if depender ∈ allDirty then propagateVisit rd fuel rest allDirty
    else
      match fuel with
      | 0 => propagateVisit rd 0 rest (depender :: allDirty)
      | fuel + 1 =>
        propagateVisit rd (fuel + 1) rest
          (propagateVisit rd fuel (rd depender) (depender :: allDirty))
termination_by fuel l _ => (fuel, l.length)

/-- `propagateDirtiness pkgName`: walk `reverseDeps[pkgName]`. -/
def propagateDirtiness (rd : String → List String) (fuel : Nat)
    (pkgName : String) (allDirty : List String) : List String :=
  propagateVisit rd fuel (rd pkgName) allDirty

/-- The `--dirty` filter of `buildCmd`: compute the directly dirty set,
propagate along the reverse-dependency graph (marking each seed then
propagating from it), and keep exactly the configs whose name is dirty. -/
def dirtyFilter (packages : List Config)
    (hashOf : Config → Except String String)
    (cacheOf : Config → Option String) : List Config :=
  let rd := reverseDepsOf packages
  let fuel := packages.length + 1
  let allDirty :=
    (directlyDirtyList packages hashOf cacheOf).foldl
      (fun acc pkgName =>
        propagateDirtiness rd fuel pkgName
          (if pkgName ∈ acc then acc else pkgName :: acc))
      []
  packages.filter (fun cfg => cfg.package.name ∈ allDirty)

/-! ## Build executor (`executeBuild`, `cmd/build.go:320`)

`executeBuild` interleaves pure logic with file-system reads and a subprocess
run.  Each effect's outcome is a field of `BuildEnv`; the function below is
the same control flow with those outcomes substituted. -/

/-- `filepath.Dir` on a slash-separated path: everything up to the last
slash, `"."` when there is none. -/
def parentDir (path : String) : String :=
  if path.data.contains '/' then
    String.mk (((path.data.reverse.dropWhile (fun c => c ≠ '/')).drop 1).reverse)
  else "."

/-- Does `s` contain `sub` as a substring (`strings.Contains`)? -/
def strContains (s sub : String) : Bool :=
  (List.range (s.data.length + 1)).any
    (fun i => sub.data.isPrefixOf (s.data.drop i))

/-- The error cases of `executeBuild`, in control-flow order. -/
inductive BuildError where
  | hashFailed (msg : String)
  | rootConfigUnreadable
  | rootConfigInvalid
  | typeUndetermined (pkg : String)
  | pkgConfigUnreadable
  | pkgConfigInvalid
  | noBuildCommand (pkg : String) (ty : String)
  | timedOut
  | commandFailed
deriving DecidableEq, Repr

/-- Outcome of running the resolved build command under its 2-minute
timeout. -/
inductive RunOutcome where
  | ok
  | nonzeroExit
  | deadlineExceeded
deriving DecidableEq, Repr

/-- Decidable equality for `Except`, so that concrete build environments can
be evaluated inside `decide`. -/
instance {m : Type} {n : Type} [DecidableEq m] [DecidableEq n] :
    DecidableEq (Except m n) := fun a b =>
  match a, b with
  | .ok x, .ok y =>
    if h : x = y then .isTrue (congrArg _ h)
    else .isFalse (fun he => h (Except.ok.inj he))
  | .error x, .error y =>
    if h : x = y then .isTrue (congrArg _ h)
    else .isFalse (fun he => h (Except.error.inj he))
  | .ok _, .error _ => .isFalse Except.noConfusion
  | .error _, .ok _ => .isFalse Except.noConfusion

/-- The effects `executeBuild` performs, with their outcomes fixed up front:
the package-directory hash, the cache-file read (`os.ReadFile` on
`<cacheDir>/<name>.hash`, read again unchanged at the hit check), the root
`grit.yaml` read+parse, the package `grit.yaml` re-read+re-parse, and the
build command run. -/
structure BuildEnv where
  packageHash : Except String String
  cacheEntry : Option String
  rootConfig : Except BuildError RootConfig
  pkgConfig : Except BuildError Config
  runResult : RunOutcome
deriving DecidableEq, Repr

/-- The observable result of `executeBuild`: the root config is skipped
outright; a cache hit returns success without building; a successful build
reports the cache entry it wrote (`none` when caching is bypassed); anything
else is a failure carrying its error. -/
inductive ExecResult where
  | rootSkip
  | cacheHit
  | builtOk (cacheWrite : Option String)
  | failed (e : BuildError)
deriving DecidableEq, Repr

/-- Determine the package type: the first type (in map-iteration order,
modelled as list order) whose `packageDir` is contained in the package's
directory path. -/
def determineType (cfgDir : String) (types : List (String × TypeConfig)) :
    Option (String × TypeConfig) :=
  types.find? (fun t => strContains cfgDir t.2.packageDir)

/-- Resolve the effective build command: the package's own `build` target if
present and non-empty, else the type's `build` target if present and
non-empty, else the "no build command" error naming package and type. -/
def resolveBuildCommand (pkgTargets typeTargets : List (String × String))
    (pkgName typeName : String) : Except BuildError String :=
  match pkgTargets.lookup "build" with
  | some cmd =>
    if cmd ≠ "" then .ok cmd
    else
      match typeTargets.lookup "build" with
      | some tcmd =>
        if tcmd ≠ "" then .ok tcmd
        else .error (.noBuildCommand pkgName typeName)
      | none => .error (.noBuildCommand pkgName typeName)
  | none =>
    match typeTargets.lookup "build" with
    | some tcmd =>
      if tcmd ≠ "" then .ok tcmd
      else .error (.noBuildCommand pkgName typeName)
    | none => .error (.noBuildCommand pkgName typeName)

/-- `executeBuild cfg` under flag values `dirtyFlag`/`noCache` and effect
outcomes `env`. -/
def executeBuild (dirtyFlag noCache : Bool) (cfg : Config) (env : BuildEnv) :
    ExecResult :=
  if cfg.package.name = "" then .rootSkip
  else
    let cfgDir := parentDir cfg.package.path
    let newHashE : Except String String :=
      if dirtyFlag && !noCache then
        match env.cacheEntry with
        | some cachedHash => .ok cachedHash
        | none => env.packageHash
      else env.packageHash
    match newHashE with
    | .error msg => .failed (.hashFailed msg)
    | .ok newHash =>
      if !noCache && env.cacheEntry = some newHash then .cacheHit
      else
        match env.rootConfig with
        | .error e => .failed e
        | .ok rootConfig =>
          match determineType cfgDir rootConfig.types with
          | none => .failed (.typeUndetermined cfg.package.name)
          | some t =>
            match env.pkgConfig with
            | .error e => .failed e
            | .ok cfgConfig =>
              match resolveBuildCommand cfgConfig.targets t.2.targets
                  cfg.package.name t.1 with
              | .error e => .failed e
              | .ok _ =>
                match env.runResult with
                | .deadlineExceeded => .failed .timedOut
                | .nonzeroExit => .failed .commandFailed
                | .ok => .builtOk (if noCache then none else some newHash)

/-! ## Run coordinator (`buildCmd`'s stage loop, `cmd/build.go:140`) -/

/-- The aggregate observable state of a run: the success counter, the failed
package name list, and the names for which a build result was collected (one
`progress.Add(1)` each). -/
structure RunSummary where
  successCount : Nat
  failedPackages : List String
  processed : List String
deriving DecidableEq, Repr

/-- The per-stage fan-out/fan-in loop: launch every non-root package of the
stage (here: evaluate its build result), collect all results, then stop
before the next stage if this stage had any failure.  `exec` abstracts one
package's `executeBuild` outcome as a success flag. -/
def runLevels (exec : Config → Bool) : List (List Config) → RunSummary
  | [] => ⟨0, [], []⟩
  | level :: rest =>
    let cfgs := level.filter (fun cfg => cfg.package.name ≠ "")
    let succ := cfgs.filter (fun cfg => exec cfg)
    let fails := cfgs.filter (fun cfg => !(exec cfg))
    if fails.length > 0 then
      ⟨succ.length, fails.map (·.package.name), cfgs.map (·.package.name)⟩
    else
      let s := runLevels exec rest
      ⟨succ.length + s.successCount, fails.map (·.package.name) ++ s.failedPackages,
       cfgs.map (·.package.name) ++ s.processed⟩

/-- The per-level results of one stage, as the coordinator observes them:
every non-root package of the stage is launched and its result collected
independently of its siblings. -/
def stageResults (dirtyFlag noCache : Bool) (level : List Config)
    (envOf : Config → BuildEnv) : List (String × ExecResult) :=
  (level.filter (fun cfg => cfg.package.name ≠ "")).map
    (fun cfg => (cfg.package.name, executeBuild dirtyFlag noCache cfg (envOf cfg)))

/-! ## Derived notions used by the statements -/

/-- Does a targets map define a (non-empty) `build` command?  This is the
sense in which `executeBuild` treats a target as defined: a present but
empty string falls through exactly like a missing key. -/
def definesBuildTarget (targets : List (String × String)) : Bool :=
  match targets.lookup "build" with
  | some cmd => cmd ≠ ""
  | none => false

/-- The non-root configs of a stage (the coordinator launches exactly
these). -/
def levelNonRoot (level : List Config) : List Config :=
  level.filter (fun cfg => cfg.package.name ≠ "")

/-- The names of the package records (non-root records) of an input list. -/
def inputPackageNames (input : List Config) : List String :=
  (input.filter (fun cfg => cfg.package.name ≠ "")).map (·.package.name)

/-- Acyclicity of the resolvable dependency graph, stated as the existence of
a topological ranking: every resolvable dependency edge descends strictly in
rank.  A graph admits such a ranking iff it has no directed cycle. -/
def ResolvableAcyclic (packages : List Config) : Prop :=
  ∃ rank : String → Nat, ∀ cfg ∈ packages, ∀ d ∈ cfg.package.dependencies,
    depResolvable packages d = true → rank d < rank cfg.package.name

/-- Acyclicity of the dependency graph restricted to the input's package
records (the graph the stage scheduler consults), again via a topological
ranking. -/
def StageAcyclic (input : List Config) : Prop :=
  ∃ rank : String → Nat, ∀ cfg ∈ input, cfg.package.name ≠ "" →
    ∀ d ∈ cfg.package.dependencies, d ∈ inputPackageNames input →
      rank d < rank cfg.package.name

/-- `p` has a dependency path to `a`: a chain of declared-dependency edges
`p → ... → a` (each step: some config named `x` declares `y` among its
dependencies), including the empty chain `p = a`. -/
def HasDepPathTo (packages : List Config) (p a : String) : Prop :=
  Relation.ReflTransGen
    (fun x y => ∃ cfg ∈ packages, cfg.package.name = x ∧ y ∈ cfg.package.dependencies)
    p a

/-- Reverse-dependency reachability: the set `propagateDirtiness` explores. -/
def ReverseReach (packages : List Config) (a p : String) : Prop :=
  Relation.ReflTransGen (fun x y => y ∈ reverseDepsOf packages x) a p

/-! ## Concrete sample data for the closed statements -/

/-- A package config literal with the workspace layout used throughout the
examples. -/
def mkConfig (n : String) (deps : List String) : Config :=
  ⟨[], ⟨n, "0.1.0", deps, "", "packages/" ++ n ++ "/grit.yaml"⟩⟩

/-- Sample catalog: `util ← core ← app` (the scenario of the spec). -/
def demoChain : List Config :=
  [mkConfig "util" [], mkConfig "core" ["util"], mkConfig "app" ["core"]]

/-- Sample catalog with a two-node cycle `a ↔ b`. -/
def demoCycle : List Config := [mkConfig "a" ["b"], mkConfig "b" ["a"]]

/-- Sample catalog for the dirty-propagation scenario: `b` depends on `a`;
`c` is unrelated. -/
def demoDirty : List Config := [mkConfig "a" [], mkConfig "b" ["a"], mkConfig "c" []]

/-- Sample fresh fingerprints for `demoDirty`. -/
def demoFresh : Config → String := fun cfg => "h" ++ cfg.package.name

/-- Sample hash outcomes: hashing always succeeds with the fresh
fingerprint. -/
def demoHashOf : Config → Except String String := fun cfg => .ok (demoFresh cfg)

/-- Sample cache contents: only `a`'s entry is stale. -/
def demoCacheOf : Config → Option String := fun cfg =>
  if cfg.package.name = "a" then some "old" else some (demoFresh cfg)

/-- Sample per-package build outcome for the fail-fast scenario: exactly `a`
fails. -/
def demoExec : Config → Bool := fun cfg => cfg.package.name ≠ "a"

/-- Sample stage partition for the fail-fast scenario: stage 1 = `{a, b}`,
stage 2 = `{c}` with `c` depending on `a`. -/
def demoLevels : List (List Config) :=
  [[mkConfig "a" [], mkConfig "b" []], [mkConfig "c" ["a"]]]

/-- A sample build environment whose every effect succeeds, with hash `h` and
cache entry `c`. -/
def demoEnv (h : String) (c : Option String) : BuildEnv :=
  { packageHash := .ok h
    cacheEntry := c
    rootConfig := .ok ⟨[], [("app", ⟨"packages", "build/app", "coverage/app",
      [("build", "make build")], []⟩)]⟩
    pkgConfig := .ok (mkConfig "a" [])
    runResult := .ok }

/-! # Theorems -/

/-! ## Claim C10 — fingerprint determinism / enumeration-order independence -/

/-- Claim C10: the package fingerprint is deterministic and independent of
the order in which the file walk visits the files: whenever two walks present
the same multiset of `(relativePath, sizeBytes, modificationTimestampNanos)`
triples, `calculatePackageHash` returns the same hex digest, because the
formatted metadata lines are sorted before hashing. -/
theorem C10_fingerprint_walk_order_independent (l1 l2 : List WalkedFile)
    (h : l1.Perm l2) : calculatePackageHash l1 = calculatePackageHash l2 := by
  have hm : (l1.map fileInfoLine).Perm (l2.map fileInfoLine) := h.map _
  have hs : (l1.map fileInfoLine).insertionSort (· ≤ ·)
      = (l2.map fileInfoLine).insertionSort (· ≤ ·) :=
    List.eq_of_perm_of_sorted
      (((List.perm_insertionSort _ _).trans hm).trans
        (List.perm_insertionSort _ _).symm)
      (List.sorted_insertionSort _ _) (List.sorted_insertionSort _ _)
  simp only [calculatePackageHash, hs]

/-- Witness for C10 at a concrete pair of walks in opposite visit orders. -/
theorem C10_fingerprint_walk_order_independent_witness :
    ([⟨"cmd/main.go", 120, 1700000000⟩, ⟨"go.mod", 35, 1650000000⟩] :
        List WalkedFile).Perm
      [⟨"go.mod", 35, 1650000000⟩, ⟨"cmd/main.go", 120, 1700000000⟩]
    ∧ calculatePackageHash
        [⟨"cmd/main.go", 120, 1700000000⟩, ⟨"go.mod", 35, 1650000000⟩]
      = calculatePackageHash
        [⟨"go.mod", 35, 1650000000⟩, ⟨"cmd/main.go", 120, 1700000000⟩] :=
  ⟨by decide, C10_fingerprint_walk_order_independent _ _ (by decide)⟩

/-! ## Claim C1 — the cache check, and its breakage under `--dirty` -/

/-- Claim C1 (evaluation at the failing input): in a dirty-only run with
caching active, a package whose cache entry is readable has the *stale
entry* adopted as its "current" hash (`newHash = string(cachedHash)`), so the
subsequent comparison trivially succeeds: `executeBuild` reports a cache hit
and never builds nor overwrites the entry, even though the freshly computed
fingerprint (`"newhash"`) differs from the persisted one (`"oldhash"`).  The
claim requires the fresh fingerprint to be compared, which is unequal here,
so the build should have proceeded. -/
theorem C1_dirty_run_spurious_cache_hit :
    executeBuild true false (mkConfig "a" []) (demoEnv "newhash" (some "oldhash"))
        = .cacheHit
    ∧ (demoEnv "newhash" (some "oldhash")).packageHash = .ok "newhash"
    ∧ (demoEnv "newhash" (some "oldhash")).cacheEntry = some "oldhash"
    ∧ ("newhash" : String) ≠ "oldhash"
    ∧ executeBuild false false (mkConfig "a" []) (demoEnv "newhash" (some "oldhash"))
        = .builtOk (some "newhash") := by
  refine ⟨by decide, by decide, by decide, by decide, by decide⟩

/-! ## Claim C6 — build command resolution and failure locality -/

/-- Claim C6: the effective build command is the package's own non-empty
`build` target when present, else the type's non-empty `build` target; the
"no build command" error (naming the package and its type) occurs if and
only if neither defines the target; and a package's result in a stage is its
own `executeBuild` outcome, independent of its siblings, so such a failure
leaves the other packages of the stage building normally. -/
theorem C6_build_command_resolution :
    (∀ (pt tt : List (String × String)) (n ty : String),
      resolveBuildCommand pt tt n ty = .error (.noBuildCommand n ty)
        ↔ (definesBuildTarget pt = false ∧ definesBuildTarget tt = false))
    ∧ (∀ (pt tt : List (String × String)) (n ty c : String),
        pt.lookup "build" = some c → c ≠ "" →
        resolveBuildCommand pt tt n ty = .ok c)
    ∧ (∀ (d nc : Bool) (level : List Config) (envOf : Config → BuildEnv),
        ∀ x ∈ level, x.package.name ≠ "" →
        (x.package.name, executeBuild d nc x (envOf x))
          ∈ stageResults d nc level envOf) := by
  refine ⟨?_, ?_, ?_⟩
  · intro pt tt n ty
    unfold resolveBuildCommand definesBuildTarget
    rcases hp : pt.lookup "build" with _ | c
    · rcases ht : tt.lookup "build" with _ | tc
      · simp
      · by_cases htc : tc = "" <;> simp [htc]
    · by_cases hc : c = ""
      · rcases ht : tt.lookup "build" with _ | tc
        · simp [hc]
        · by_cases htc : tc = "" <;> simp [hc, htc]
      · simp [hc]
  · intro pt tt n ty c hp hc
    unfold resolveBuildCommand
    simp [hp, hc]
  · intro d nc level envOf x hx hn
    unfold stageResults
    exact List.mem_map_of_mem _ (List.mem_filter.mpr ⟨hx, by simpa using hn⟩)

/-- Witness for C6: a package `x` of type `lib` with no build target at
either level fails with the "no build command" error naming both, while its
own non-empty target would have resolved. -/
theorem C6_build_command_resolution_witness :
    resolveBuildCommand [] [] "x" "lib" = .error (.noBuildCommand "x" "lib")
    ∧ resolveBuildCommand [("build", "go build ./...")] [] "x" "lib"
        = .ok "go build ./..." :=
  ⟨(C6_build_command_resolution.1 [] [] "x" "lib").mpr ⟨by decide, by decide⟩,
   C6_build_command_resolution.2.1 [("build", "go build ./...")] [] "x" "lib"
     "go build ./..." (by decide) (by decide)⟩

/-! ## Claim C9 — the persisted fingerprint is the pre-build one -/

/-- Claim C9: in a normal caching run (no `--dirty`, cache not bypassed), the
fingerprint a successful build persists is exactly the one computed *before*
the build command ran (`newHash` is fixed before `cmd.Run()` and written
verbatim afterwards); consequently, if the build command's own file writes
move the directory hash to a different value, the next run's cache check
compares that value against the stored pre-build one and misses, so the
package is found dirty again. -/
theorem C9_prebuild_fingerprint_persisted (cfg : Config) (env : BuildEnv)
    (w : Option String) (hb : String)
    (hhash : env.packageHash = .ok hb)
    (hres : executeBuild false false cfg env = .builtOk w) :
    w = some hb
    ∧ ∀ (env2 : BuildEnv) (ha : String), ha ≠ hb →
        env2.packageHash = .ok ha → env2.cacheEntry = some hb →
        executeBuild false false cfg env2 ≠ .cacheHit := by
  constructor
  · by_cases hn : cfg.package.name = ""
    · simp [executeBuild, hn] at hres
    · simp [executeBuild, hn, hhash] at hres
      by_cases hce : env.cacheEntry = some hb
      · rw [if_pos hce] at hres
        simp at hres
      · rw [if_neg hce] at hres
        iterate 5 (all_goals try split at hres)
        all_goals simp_all
  · intro env2 ha hne hh2 hc2
    by_cases hn : cfg.package.name = ""
    · simp [executeBuild, hn]
    · simp [executeBuild, hn, hh2, hc2]
      refine ⟨fun h => hne h.symm, ?_⟩
      iterate 5 (all_goals try split)
      all_goals simp

/-- Witness for C9: a successful first build persists the pre-build hash
`h1`; a following run whose fresh hash `h2` differs does not cache-hit. -/
theorem C9_prebuild_fingerprint_persisted_witness :
    (demoEnv "h1" none).packageHash = .ok "h1"
    ∧ executeBuild false false (mkConfig "a" []) (demoEnv "h1" none)
        = .builtOk (some "h1")
    ∧ executeBuild false false (mkConfig "a" []) (demoEnv "h2" (some "h1"))
        ≠ .cacheHit :=
  ⟨by decide, by decide,
   (C9_prebuild_fingerprint_persisted (mkConfig "a" []) (demoEnv "h1" none)
       (some "h1") "h1" (by decide) (by decide)).2
     (demoEnv "h2" (some "h1")) "h2" (by decide) (by decide) (by decide)⟩

/-! ## Claim C8 — the empty-named (workspace-root) record -/

/-- Every package of every stage produced by `groupLoop` comes from the
initial `remaining` set; in particular, when that set contains only
non-empty-named configs, so does every stage. -/
theorem groupLoop_names_nonempty
    (dOn : String → List String) (cnt : String → Nat) :
    ∀ (fuel : Nat) (remaining : List Config),
      (∀ x ∈ remaining, x.package.name ≠ "") →
      ∀ l ∈ groupLoop dOn cnt fuel remaining, ∀ x ∈ l, x.package.name ≠ "" := by
  intro fuel
  induction fuel with
  | zero =>
    intro remaining _ l hl
    simp [groupLoop] at hl
  | succ fuel ih =>
    intro remaining hrem l hl x hx
    rw [groupLoop] at hl
    by_cases hre : remaining = []
    · simp [hre] at hl
    · rw [if_neg hre] at hl
      rcases List.mem_cons.mp hl with hl1 | hl2
      · subst hl1
        have hx3 : x ∈ remaining := by
          simp only [groupStep] at hx
          have hx2 := (List.perm_insertionSort
            (fun a b : Config => cnt b.package.name ≤ cnt a.package.name) _).mem_iff.mp hx
          by_cases hc : (remaining.filter (fun cfg =>
              (dOn cfg.package.name).all
                (fun d => !((remaining.map (·.package.name)).contains d)))).isEmpty
          · rw [if_pos hc] at hx2
            exact List.mem_of_mem_take hx2
          · rw [if_neg hc] at hx2
            exact List.mem_of_mem_filter hx2
        exact hrem x hx3
      · have hsub : ∀ y ∈ (groupStep dOn cnt remaining).2, y ∈ remaining := by
          intro y hy
          simp only [groupStep] at hy
          exact List.mem_of_mem_filter hy
        exact ih (groupStep dOn cnt remaining).2
          (fun y hy => hrem y (hsub y hy)) l hl2 x hx

/-- Claim C8 (counterexample): `resolveDependencies` does *not* exclude
empty-named records from graph construction: a workspace-root record
contributes the node `""` to the graph, and its resolvable dependencies
contribute edges (`graphAdj` at `""` is non-empty here). -/
theorem C8_counterexample_root_in_graph :
    "" ∈ graphKeys [mkConfig "" ["a"], mkConfig "a" []]
    ∧ graphAdj [mkConfig "" ["a"], mkConfig "a" []] "" = ["a"] := by
  refine ⟨by decide, by decide⟩

/-- Claim C8 (amended): an empty-named record *is* carried into the
resolver's dependency graph (it contributes its node, and edges for its
resolvable dependencies — see the counterexample); the workspace-root
exclusion instead happens downstream: no stage produced by
`groupPackagesByLevel` ever contains an empty-named record, `executeBuild`
returns immediately (a successful no-op touching nothing) on one, and the
reported package-name list omits it. -/
theorem C8_root_record_excluded_downstream :
    (∀ (packages : List Config) (cfg : Config), cfg ∈ packages →
      cfg.package.name = "" → "" ∈ graphKeys packages)
    ∧ (∀ (buildOrder : List Config) (lvl : List Config) (cfg : Config),
        lvl ∈ groupPackagesByLevel buildOrder → cfg ∈ lvl →
        cfg.package.name ≠ "")
    ∧ (∀ (d nc : Bool) (cfg : Config) (env : BuildEnv),
        cfg.package.name = "" → executeBuild d nc cfg env = .rootSkip)
    ∧ (∀ configs : List Config, "" ∉ getPackageNames configs) := by
  refine ⟨?_, ?_, ?_, ?_⟩
  · intro packages cfg hmem hname
    unfold graphKeys
    rw [List.mem_dedup]
    exact List.mem_map.mpr ⟨cfg, hmem, hname⟩
  · intro buildOrder lvl cfg hlvl hcfg
    refine groupLoop_names_nonempty _ _ _ _ ?_ lvl hlvl cfg hcfg
    intro x hx
    have := List.mem_filter.mp hx
    simpa using this.2
  · intro d nc cfg env hname
    simp [executeBuild, hname]
  · intro configs hmem
    unfold getPackageNames at hmem
    rcases List.mem_map.mp hmem with ⟨cfg, hcfg, hname⟩
    have := (List.mem_filter.mp hcfg).2
    simp [hname] at this

/-! ## Claim C7 — fail-fast staging -/

/-- Claim C7: once the stage at index `k` is the first to contain a failure,
the coordinator collects a result for every launched (non-root) package of
stages `0..k` — including every sibling of the failing package in stage `k` —
records exactly stage `k`'s failures and the successes of stages `0..k`, and
never processes any package of a later stage (they are reported only as not
attempted). -/
theorem C7_fail_fast (levels : List (List Config)) (exec : Config → Bool)
    (k : Nat) (hk : k < levels.length)
    (hdisj : (levels.flatMap (fun lv => (levelNonRoot lv).map (·.package.name))).Nodup)
    (hfail : ∃ cfg ∈ levelNonRoot (levels.get ⟨k, hk⟩), exec cfg = false)
    (hpre : ∀ (j : Nat) (hj : j < levels.length), j < k →
        ∀ cfg ∈ levelNonRoot (levels.get ⟨j, hj⟩), exec cfg = true) :
    (runLevels exec levels).processed
        = (levels.take (k + 1)).flatMap
            (fun lv => (levelNonRoot lv).map (·.package.name))
    ∧ (runLevels exec levels).failedPackages
        = ((levelNonRoot (levels.get ⟨k, hk⟩)).filter
            (fun cfg => !(exec cfg))).map (·.package.name)
    ∧ (runLevels exec levels).successCount
        = ((levels.take (k + 1)).flatMap
            (fun lv => (levelNonRoot lv).filter (fun cfg => exec cfg))).length
    ∧ ∀ (j : Nat) (hj : j < levels.length), k < j →
        ∀ cfg ∈ levelNonRoot (levels.get ⟨j, hj⟩),
          cfg.package.name ∉ (runLevels exec levels).processed := by
  induction k generalizing levels with
  | zero =>
    cases levels with
    | nil => simp at hk
    | cons lv rest =>
      obtain ⟨c0, hc0, hc0f⟩ := hfail
      have hpos : 0 < ((lv.filter (fun cfg => cfg.package.name ≠ "")).filter
          (fun cfg => !(exec cfg))).length := by
        have hmemf : c0 ∈ (lv.filter (fun cfg => cfg.package.name ≠ "")).filter
            (fun cfg => !(exec cfg)) :=
          List.mem_filter.mpr ⟨hc0, by simp [hc0f]⟩
        exact List.length_pos.mpr (List.ne_nil_of_mem hmemf)
      simp only [runLevels]
      rw [if_pos (by simpa using hpos)]
      refine ⟨by simp [levelNonRoot], by simp [levelNonRoot], by simp [levelNonRoot], ?_⟩
      intro j hj hjpos cfg hcfg
      cases j with
      | zero => omega
      | succ j' =>
        have hj' : j' < rest.length := by simpa using hj
        rw [List.flatMap_cons] at hdisj
        have hdj := (List.nodup_append.mp hdisj).2.2
        have hcname : cfg.package.name ∈ rest.flatMap
            (fun l => (levelNonRoot l).map (·.package.name)) :=
          List.mem_flatMap.mpr ⟨rest.get ⟨j', hj'⟩, List.get_mem _ _ _,
            List.mem_map_of_mem _ (by simpa using hcfg)⟩
        dsimp only
        intro hmem
        exact hdj (by simpa [levelNonRoot] using hmem) hcname
  | succ k ih =>
    cases levels with
    | nil => simp at hk
    | cons lv rest =>
      have hk' : k < rest.length := by simpa using hk
      have h0 : ∀ cfg ∈ levelNonRoot lv, exec cfg = true := by
        have h00 := hpre 0 (by simp) (Nat.succ_pos k)
        simpa using h00
      have hfe : (lv.filter (fun cfg => cfg.package.name ≠ "")).filter
          (fun cfg => !(exec cfg)) = [] := by
        apply List.filter_eq_nil_iff.mpr
        intro a ha
        simp [h0 a ha]
      have hdisj0 := hdisj
      rw [List.flatMap_cons] at hdisj0
      have hdisj' : (rest.flatMap
          (fun l => (levelNonRoot l).map (·.package.name))).Nodup :=
        (List.nodup_append.mp hdisj0).2.1
      have hfail' : ∃ cfg ∈ levelNonRoot (rest.get ⟨k, hk'⟩), exec cfg = false := by
        simpa using hfail
      have hpre' : ∀ (j : Nat) (hj : j < rest.length), j < k →
          ∀ cfg ∈ levelNonRoot (rest.get ⟨j, hj⟩), exec cfg = true := by
        intro j hj hjk
        have h2 := hpre (j + 1) (by simpa using hj) (by omega)
        simpa using h2
      obtain ⟨ihp, ihf, ihs, ihn⟩ := ih rest hk' hdisj' hfail' hpre'
      simp only [runLevels]
      rw [if_neg (by rw [hfe]; simp)]
      refine ⟨?_, ?_, ?_, ?_⟩
      · dsimp only
        rw [ihp]
        simp [levelNonRoot]
      · dsimp only
        rw [hfe, ihf]
        simp
      · dsimp only
        rw [ihs]
        simp [levelNonRoot]
      · intro j hj hjk cfg hcfg
        cases j with
        | zero => omega
        | succ j' =>
          have hj' : j' < rest.length := by simpa using hj
          have hrec := ihn j' hj' (by omega) cfg (by simpa using hcfg)
          dsimp only
          intro hx
          rcases List.mem_append.mp hx with h1 | h2
          · have hdj := (List.nodup_append.mp hdisj0).2.2
            have hcname : cfg.package.name ∈ rest.flatMap
                (fun l => (levelNonRoot l).map (·.package.name)) :=
              List.mem_flatMap.mpr ⟨rest.get ⟨j', hj'⟩, List.get_mem _ _ _,
                List.mem_map_of_mem _ (by simpa using hcfg)⟩
            exact hdj (by simpa [levelNonRoot] using h1) hcname
          · exact hrec h2

/-- Witness for C7 at the spec scenario: stage 1 = `{a, b}`, stage 2 = `{c}`;
`a` fails, so stage 2's `c` is never processed. -/
theorem C7_fail_fast_witness :
    (∃ cfg ∈ levelNonRoot (demoLevels.get ⟨0, by decide⟩), demoExec cfg = false)
    ∧ (mkConfig "c" ["a"]).package.name ∉ (runLevels demoExec demoLevels).processed :=
  ⟨by decide,
   (C7_fail_fast demoLevels demoExec 0 (by decide) (by decide) (by decide)
       (fun j hj hjk => absurd hjk (by omega))).2.2.2
     1 (by decide) (by decide) (mkConfig "c" ["a"]) (by decide)⟩

/-! ## Claim C5 — dirty propagation along the reverse-dependency graph -/

/-- The visited set only grows during propagation. -/
theorem propagateVisit_sub (rd : String → List String) :
    ∀ (fuel : Nat) (l acc : List String), acc ⊆ propagateVisit rd fuel l acc := by
  intro fuel
  induction fuel using Nat.strong_induction_on with
  | _ fuel ihf =>
    intro l
    induction l with
    | nil => intro acc; simp [propagateVisit]
    | cons d rest ihl =>
      intro acc
      rw [propagateVisit.eq_def]
      dsimp only
      by_cases hd : d ∈ acc
      · rw [if_pos hd]
        exact ihl acc
      · rw [if_neg hd]
        cases fuel with
        | zero =>
          exact fun x hx => ihl (d :: acc) (List.mem_cons_of_mem d hx)
        | succ f =>
          intro x hx
          exact ihl _ (ihf f (by omega) (rd d) (d :: acc) (List.mem_cons_of_mem d hx))

/-- With enough fuel (more than the number of unvisited names), `propagateVisit`
marks its whole worklist, keeps the visited set duplicate-free and inside the
universe of names, and fully expands every newly marked node: the result is
closed under one reverse-dependency step out of any node marked during the
call.  The fuel bound is exactly the Go termination argument: each recursive
descent strictly grows the visited set, so the depth never exceeds the number
of names. -/
theorem propagateVisit_spec (univ : List String) (rd : String → List String)
    (hrd : ∀ x, rd x ⊆ univ) :
    ∀ (fuel : Nat) (l acc : List String), acc.Nodup → acc ⊆ univ → l ⊆ univ →
      univ.length < fuel + acc.length →
      (l ⊆ propagateVisit rd fuel l acc
       ∧ (propagateVisit rd fuel l acc).Nodup
       ∧ propagateVisit rd fuel l acc ⊆ univ
       ∧ ∀ x ∈ propagateVisit rd fuel l acc, x ∉ acc →
           rd x ⊆ propagateVisit rd fuel l acc) := by
  intro fuel
  induction fuel using Nat.strong_induction_on with
  | _ fuel ihf =>
    intro l
    induction l with
    | nil =>
      intro acc hnd hau _ _
      refine ⟨by simp, by simpa [propagateVisit] using hnd,
        by simpa [propagateVisit] using hau, ?_⟩
      intro x hx hxa
      simp [propagateVisit] at hx
      exact absurd hx hxa
    | cons d rest ihl =>
      intro acc hnd hau hlu hlen
      rw [propagateVisit.eq_def]
      dsimp only
      by_cases hd : d ∈ acc
      · rw [if_pos hd]
        obtain ⟨h1, h2, h3, h4⟩ := ihl acc hnd hau
          (fun x hx => hlu (List.mem_cons_of_mem d hx)) hlen
        refine ⟨?_, h2, h3, h4⟩
        intro x hx
        rcases List.mem_cons.mp hx with hx | hx
        · subst hx
          exact propagateVisit_sub rd fuel rest acc hd
        · exact h1 hx
      · rw [if_neg hd]
        cases fuel with
        | zero =>
          exfalso
          have : acc.length ≤ univ.length := (List.subperm_of_subset hnd hau).length_le
          omega
        | succ f =>
          have hdu : d ∈ univ := hlu (List.mem_cons_self d rest)
          have hnd1 : (d :: acc).Nodup := List.nodup_cons.mpr ⟨hd, hnd⟩
          have hau1 : (d :: acc) ⊆ univ := by
            intro x hx
            rcases List.mem_cons.mp hx with hx | hx
            · exact hx ▸ hdu
            · exact hau hx
          obtain ⟨g1, g2, g3, g4⟩ := ihf f (by omega) (rd d) (d :: acc) hnd1 hau1
            (hrd d) (by simp; omega)
          have hsub1 : (d :: acc) ⊆ propagateVisit rd f (rd d) (d :: acc) :=
            propagateVisit_sub rd f (rd d) (d :: acc)
          have hlen1 : acc.length + 1 ≤ (propagateVisit rd f (rd d) (d :: acc)).length := by
            have := (List.subperm_of_subset hnd1 hsub1).length_le
            simpa using this
          obtain ⟨k1, k2, k3, k4⟩ := ihl (propagateVisit rd f (rd d) (d :: acc)) g2 g3
            (fun x hx => hlu (List.mem_cons_of_mem d hx)) (by omega)
          have hsub2 : propagateVisit rd f (rd d) (d :: acc)
              ⊆ propagateVisit rd (f + 1) rest (propagateVisit rd f (rd d) (d :: acc)) :=
            propagateVisit_sub rd (f + 1) rest _
          refine ⟨?_, k2, k3, ?_⟩
          · intro x hx
            rcases List.mem_cons.mp hx with hx | hx
            · subst hx
              exact hsub2 (hsub1 (List.mem_cons_self _ _))
            · exact k1 hx
          · intro x hx hxa
            by_cases hx1 : x ∈ propagateVisit rd f (rd d) (d :: acc)
            · by_cases hxd : x = d
              · subst hxd
                exact fun y hy => hsub2 (g1 hy)
              · have hx2 : x ∉ (d :: acc) := by
                  intro hc
                  rcases List.mem_cons.mp hc with hc | hc
                  · exact hxd hc
                  · exact hxa hc
                exact fun y hy => hsub2 (g4 x hx1 hx2 hy)
            · exact k4 x hx hx1

/-- Soundness of propagation: anything marked was already marked or is
reachable from the worklist along reverse-dependency edges. -/
theorem propagateVisit_sound (rd : String → List String) :
    ∀ (fuel : Nat) (l acc : List String) (x : String),
      x ∈ propagateVisit rd fuel l acc →
      x ∈ acc ∨ ∃ y ∈ l, Relation.ReflTransGen (fun a b => b ∈ rd a) y x := by
  intro fuel
  induction fuel using Nat.strong_induction_on with
  | _ fuel ihf =>
    intro l
    induction l with
    | nil =>
      intro acc x hx
      simp [propagateVisit] at hx
      exact Or.inl hx
    | cons d rest ihl =>
      intro acc x hx
      rw [propagateVisit.eq_def] at hx
      dsimp only at hx
      by_cases hd : d ∈ acc
      · rw [if_pos hd] at hx
        rcases ihl acc x hx with h | ⟨y, hy, hr⟩
        · exact Or.inl h
        · exact Or.inr ⟨y, List.mem_cons_of_mem d hy, hr⟩
      · rw [if_neg hd] at hx
        cases fuel with
        | zero =>
          rcases ihl (d :: acc) x hx with h | ⟨y, hy, hr⟩
          · rcases List.mem_cons.mp h with h | h
            · exact Or.inr ⟨d, List.mem_cons_self d rest, h ▸ Relation.ReflTransGen.refl⟩
            · exact Or.inl h
          · exact Or.inr ⟨y, List.mem_cons_of_mem d hy, hr⟩
        | succ f =>
          rcases ihl (propagateVisit rd f (rd d) (d :: acc)) x hx with h | ⟨y, hy, hr⟩
          · rcases ihf f (by omega) (rd d) (d :: acc) x h with h2 | ⟨y, hy, hr⟩
            · rcases List.mem_cons.mp h2 with h2 | h2
              · exact Or.inr ⟨d, List.mem_cons_self d rest, h2 ▸ Relation.ReflTransGen.refl⟩
              · exact Or.inl h2
            · exact Or.inr ⟨d, List.mem_cons_self d rest, Relation.ReflTransGen.head hy hr⟩
          · exact Or.inr ⟨y, List.mem_cons_of_mem d hy, hr⟩

/-- One config's contribution to the `reverseDeps` map. -/
theorem reverseDeps_inner (nm : String) (deps : List String)
    (m : String → List String) (k : String) :
    (deps.foldl (fun m' depName =>
        fun q => if q = depName then m' q ++ [nm] else m' q) m) k
      = m k ++ List.replicate (deps.count k) nm := by
  induction deps generalizing m with
  | nil => simp
  | cons d rest ih =>
    simp only [List.foldl_cons]
    rw [ih]
    by_cases hk : k = d
    · subst hk
      simp [List.count_cons, List.replicate_succ, List.append_assoc]
    · have hkd : (k == d) = false := by simpa using hk
      simp [hk, List.count_cons, hkd]

/-- Closed form of the `reverseDeps` map. -/
theorem reverseDeps_apply (packages : List Config) (k : String) :
    reverseDepsOf packages k
      = packages.flatMap (fun cfg =>
          List.replicate (cfg.package.dependencies.count k) cfg.package.name) := by
  suffices h : ∀ m : String → List String,
      (packages.foldl (fun m cfg =>
          cfg.package.dependencies.foldl
            (fun m' depName =>
              fun q => if q = depName then m' q ++ [cfg.package.name] else m' q)
            m)
        m) k
      = m k ++ packages.flatMap (fun cfg =>
          List.replicate (cfg.package.dependencies.count k) cfg.package.name) by
    have := h (fun _ => [])
    simpa [reverseDepsOf] using this
  induction packages with
  | nil => intro m; simp
  | cons c rest ih =>
    intro m
    simp only [List.foldl_cons, List.flatMap_cons]
    rw [ih, reverseDeps_inner]
    simp [List.append_assoc]

/-- `n` is recorded as a depender of `d` iff some config named `n` declares
`d` among its dependencies. -/
theorem mem_reverseDepsOf (packages : List Config) (d n : String) :
    n ∈ reverseDepsOf packages d
      ↔ ∃ cfg ∈ packages, cfg.package.name = n ∧ d ∈ cfg.package.dependencies := by
  rw [reverseDeps_apply]
  simp only [List.mem_flatMap, List.mem_replicate]
  constructor
  · rintro ⟨cfg, hcfg, hcnt, rfl⟩
    exact ⟨cfg, hcfg, rfl, List.count_pos_iff.mp (Nat.pos_of_ne_zero hcnt)⟩
  · rintro ⟨cfg, hcfg, rfl, hd⟩
    exact ⟨cfg, hcfg, Nat.pos_iff_ne_zero.mp (List.count_pos_iff.mpr hd), rfl⟩

/-- Every recorded depender is a package name of the catalog. -/
theorem reverseDepsOf_sub (packages : List Config) (d : String) :
    reverseDepsOf packages d ⊆ packages.map (·.package.name) := by
  intro n hn
  rcases (mem_reverseDepsOf packages d n).mp hn with ⟨cfg, hcfg, hname, _⟩
  exact List.mem_map.mpr ⟨cfg, hcfg, hname⟩

/-- A duplicate-free list filtered by a predicate holding at exactly one of
its members yields that singleton. -/
theorem filter_eq_singleton {m : Type} [DecidableEq m] (l : List m) (p : m → Bool)
    (a : m) (hl : l.Nodup) (ha : a ∈ l) (hpa : p a = true)
    (hothers : ∀ x ∈ l, x ≠ a → p x = false) : l.filter p = [a] := by
  induction l with
  | nil => simp at ha
  | cons b rest ih =>
    rcases List.mem_cons.mp ha with hb | hb
    · subst hb
      have hrest : rest.filter p = [] := by
        apply List.filter_eq_nil_iff.mpr
        intro x hx
        have hxa : x ≠ a := by
          intro hc
          subst hc
          exact (List.nodup_cons.mp hl).1 hx
        simp [hothers x (List.mem_cons_of_mem a hx) hxa]
      simp [List.filter_cons, hpa, hrest]
    · have hba : b ≠ a := by
        intro hc
        subst hc
        exact (List.nodup_cons.mp hl).1 hb
      have hpb : p b = false := hothers b (List.mem_cons_self b rest) hba
      rw [List.filter_cons_of_neg (by simp [hpb])]
      exact ih (List.nodup_cons.mp hl).2 hb
        (fun x hx hxa => hothers x (List.mem_cons_of_mem b hx) hxa)

/-- The directly dirty set in filter/map form: the non-root packages whose
hash fails, whose cache entry is missing, or whose cache entry differs from
the fresh hash. -/
theorem directlyDirtyList_eq (hashOf : Config → Except String String)
    (cacheOf : Config → Option String) (packages : List Config) :
    directlyDirtyList packages hashOf cacheOf
      = (packages.filter (fun cfg =>
          cfg.package.name ≠ "" &&
            match hashOf cfg with
            | .error _ => true
            | .ok newHash =>
              match cacheOf cfg with
              | none => true
              | some cachedHash => cachedHash ≠ newHash)).map (·.package.name) := by
  suffices h : ∀ acc : List String,
      packages.foldl (fun acc cfg =>
        if cfg.package.name = "" then acc
        else
          match hashOf cfg with
          | .error _ => acc ++ [cfg.package.name]
          | .ok newHash =>
            match cacheOf cfg with
            | none => acc ++ [cfg.package.name]
            | some cachedHash =>
              if cachedHash ≠ newHash then acc ++ [cfg.package.name] else acc) acc
      = acc ++ (packages.filter (fun cfg =>
          cfg.package.name ≠ "" &&
            match hashOf cfg with
            | .error _ => true
            | .ok newHash =>
              match cacheOf cfg with
              | none => true
              | some cachedHash => cachedHash ≠ newHash)).map (·.package.name) by
    simpa [directlyDirtyList] using h []
  induction packages with
  | nil => intro acc; simp
  | cons c rest ih =>
    intro acc
    simp only [List.foldl_cons]
    by_cases hn : c.package.name = ""
    · rw [List.filter_cons_of_neg (by simp [hn])]
      simp only [if_pos hn]
      exact ih acc
    · rcases hh : hashOf c with e | nh
      · rw [List.filter_cons_of_pos (by simp [hn, hh])]
        simp only [if_neg hn, hh]
        rw [ih (acc ++ [c.package.name])]
        simp
      · rcases hc : cacheOf c with _ | ch
        · rw [List.filter_cons_of_pos (by simp [hn, hh, hc])]
          simp only [if_neg hn, hh, hc]
          rw [ih (acc ++ [c.package.name])]
          simp
        · by_cases hne : ch = nh
          · subst hne
            rw [List.filter_cons_of_neg (by simp [hn, hh, hc])]
            simp only [if_neg hn, hh, hc]
            rw [if_neg (by simp)]
            exact ih acc
          · rw [List.filter_cons_of_pos (by simp [hn, hh, hc, hne])]
            simp only [if_neg hn, hh, hc]
            rw [if_pos (by simp [hne])]
            rw [ih (acc ++ [c.package.name])]
            simp

/-- Having a dependency path down to `a` is the same as being reachable from
`a` in the reverse-dependency graph. -/
theorem hasDepPathTo_iff (packages : List Config) (p a : String) :
    HasDepPathTo packages p a ↔ ReverseReach packages a p := by
  unfold HasDepPathTo ReverseReach
  constructor
  · intro h
    rw [← Relation.reflTransGen_swap]
    refine Relation.ReflTransGen.mono ?_ h
    intro x y hxy
    rcases hxy with ⟨cfg, hcfg, hname, hdep⟩
    exact (mem_reverseDepsOf packages y x).mpr ⟨cfg, hcfg, hname, hdep⟩
  · intro h
    have h2 := Relation.reflTransGen_swap.mpr h
    refine Relation.ReflTransGen.mono ?_ h2
    intro x y hxy
    rcases (mem_reverseDepsOf packages y x).mp hxy with ⟨cfg, hcfg, hname, hdep⟩
    exact ⟨cfg, hcfg, hname, hdep⟩

/-- Claim C5: in a dirty-only run where exactly `A` is directly dirty (its
fingerprint differs from its readable cache entry, every other package
matches its entry), the dirty set entering the pipeline contains `A`, every
package with a dependency path to `A` (in particular any direct dependent
`B`), and nothing else: a package `C` with no dependency path to `A` is
excluded.  The propagation itself is a total function even on cyclic graphs
(the visited set makes the modelled fuel sufficient). -/
theorem C5_dirty_propagation
    (packages : List Config) (A B : Config)
    (hashOf : Config → Except String String) (cacheOf : Config → Option String)
    (freshOf : Config → String) (cA : String)
    (hnd : (packages.map (·.package.name)).Nodup)
    (hA : A ∈ packages) (hAname : A.package.name ≠ "")
    (hB : B ∈ packages) (hBdep : A.package.name ∈ B.package.dependencies)
    (hAhash : hashOf A = .ok (freshOf A))
    (hAcache : cacheOf A = some cA) (hAdiff : cA ≠ freshOf A)
    (hclean : ∀ cfg ∈ packages, cfg.package.name ≠ "" → cfg ≠ A →
        hashOf cfg = .ok (freshOf cfg) ∧ cacheOf cfg = some (freshOf cfg)) :
    A ∈ dirtyFilter packages hashOf cacheOf
    ∧ B ∈ dirtyFilter packages hashOf cacheOf
    ∧ (∀ P ∈ packages, HasDepPathTo packages P.package.name A.package.name →
        P ∈ dirtyFilter packages hashOf cacheOf)
    ∧ (∀ C ∈ packages, ¬ HasDepPathTo packages C.package.name A.package.name →
        C ∉ dirtyFilter packages hashOf cacheOf) := by
  have hddl : directlyDirtyList packages hashOf cacheOf = [A.package.name] := by
    rw [directlyDirtyList_eq]
    rw [filter_eq_singleton packages _ A (hnd.of_map _) hA ?hpa ?hoth]
    · simp
    case hpa =>
      simp [hAname, hAhash, hAcache, hAdiff]
    case hoth =>
      intro x hx hxa
      by_cases hxn : x.package.name = ""
      · simp [hxn]
      · obtain ⟨hh, hc⟩ := hclean x hx hxn hxa
        simp [hxn, hh, hc]
  have hdirty : dirtyFilter packages hashOf cacheOf
      = packages.filter (fun cfg => cfg.package.name ∈
          propagateVisit (reverseDepsOf packages) (packages.length + 1)
            (reverseDepsOf packages A.package.name) [A.package.name]) := by
    unfold dirtyFilter
    rw [hddl]
    simp only [List.foldl_cons, List.foldl_nil, List.not_mem_nil, if_neg,
      propagateDirtiness]
    rfl
  set rd := reverseDepsOf packages with hrddef
  set R := propagateVisit rd (packages.length + 1) (rd A.package.name)
    [A.package.name] with hRdef
  have hrd : ∀ x, rd x ⊆ packages.map (·.package.name) :=
    fun x => reverseDepsOf_sub packages x
  have hAu : A.package.name ∈ packages.map (·.package.name) :=
    List.mem_map.mpr ⟨A, hA, rfl⟩
  obtain ⟨g1, g2, g3, g4⟩ := propagateVisit_spec (packages.map (·.package.name)) rd hrd
    (packages.length + 1) (rd A.package.name) [A.package.name]
    (by simp) (by simpa using hAu) (hrd A.package.name)
    (by simp; omega)
  have hAR : A.package.name ∈ R :=
    propagateVisit_sub rd (packages.length + 1) (rd A.package.name) [A.package.name]
      (by simp)
  have hclosed : ∀ x ∈ R, rd x ⊆ R := by
    intro x hx
    by_cases hxA : x = A.package.name
    · subst hxA
      exact g1
    · exact g4 x hx (by simp [hxA])
  have hcomplete : ∀ p, ReverseReach packages A.package.name p → p ∈ R := by
    intro p hreach
    induction hreach with
    | refl => exact hAR
    | tail h1 h2 ih => exact hclosed _ ih h2
  have hsound : ∀ p ∈ R, ReverseReach packages A.package.name p := by
    intro p hp
    rcases propagateVisit_sound rd (packages.length + 1)
        (rd A.package.name) [A.package.name] p hp with h | ⟨y, hy, hr⟩
    · have : p = A.package.name := by simpa using h
      exact this ▸ Relation.ReflTransGen.refl
    · exact Relation.ReflTransGen.head hy hr
  refine ⟨?_, ?_, ?_, ?_⟩
  · rw [hdirty]
    exact List.mem_filter.mpr ⟨hA, by simpa using hAR⟩
  · rw [hdirty]
    have hBrd : B.package.name ∈ rd A.package.name :=
      (mem_reverseDepsOf packages A.package.name B.package.name).mpr
        ⟨B, hB, rfl, hBdep⟩
    exact List.mem_filter.mpr ⟨hB, by simpa using g1 hBrd⟩
  · intro P hP hpath
    rw [hdirty]
    have := hcomplete P.package.name ((hasDepPathTo_iff packages _ _).mp hpath)
    exact List.mem_filter.mpr ⟨hP, by simpa using this⟩
  · intro C hC hnopath hmem
    rw [hdirty] at hmem
    have hCR : C.package.name ∈ R := by simpa using (List.mem_filter.mp hmem).2
    exact hnopath ((hasDepPathTo_iff packages _ _).mpr (hsound _ hCR))

/-- Witness for C5 at the spec scenario (`b` depends on `a`, only `a`
changed, `c` unrelated): `a` and `b` enter the dirty set, `c` does not. -/
theorem C5_dirty_propagation_witness :
    ((demoDirty.map (·.package.name)).Nodup
      ∧ demoHashOf (mkConfig "a" []) = .ok (demoFresh (mkConfig "a" []))
      ∧ demoCacheOf (mkConfig "a" []) = some "old")
    ∧ mkConfig "a" [] ∈ dirtyFilter demoDirty demoHashOf demoCacheOf
    ∧ mkConfig "b" ["a"] ∈ dirtyFilter demoDirty demoHashOf demoCacheOf
    ∧ mkConfig "c" [] ∉ dirtyFilter demoDirty demoHashOf demoCacheOf := by
  obtain ⟨h1, h2, h3, h4⟩ := C5_dirty_propagation demoDirty (mkConfig "a" [])
    (mkConfig "b" ["a"]) demoHashOf demoCacheOf demoFresh "old"
    (by decide) (by decide) (by decide) (by decide) (by decide)
    (by decide) (by decide) (by decide) (by decide)
  refine ⟨⟨by decide, by decide, by decide⟩, h1, h2,
    h4 (mkConfig "c" []) (by decide) ?_⟩
  intro hpath
  unfold HasDepPathTo at hpath
  rcases Relation.ReflTransGen.cases_head hpath with heq | ⟨y, hstep, _⟩
  · exact absurd heq (by decide)
  · rcases hstep with ⟨cfg, hcfg, hname, hy⟩
    have hcases : cfg = mkConfig "a" [] ∨ cfg = mkConfig "b" ["a"]
        ∨ cfg = mkConfig "c" [] := by
      simpa [demoDirty] using hcfg
    rcases hcases with rfl | rfl | rfl
    · exact absurd hname (by decide)
    · exact absurd hname (by decide)
    · simp [mkConfig] at hy

/-! ## Claim C4 — stage partition soundness -/

/-- A non-empty list has a member of minimal image. -/
theorem list_exists_min_image (l : List Config) (f : Config → Nat) (h : l ≠ []) :
    ∃ m ∈ l, ∀ x ∈ l, f m ≤ f x := by
  induction l with
  | nil => exact absurd rfl h
  | cons a t ih =>
    by_cases ht : t = []
    · subst ht
      exact ⟨a, by simp, by simp⟩
    · obtain ⟨m, hm, hmin⟩ := ih ht
      by_cases hle : f a ≤ f m
      · refine ⟨a, by simp, ?_⟩
        intro x hx
        rcases List.mem_cons.mp hx with rfl | hx
        · exact Nat.le_refl _
        · exact Nat.le_trans hle (hmin x hx)
      · refine ⟨m, List.mem_cons_of_mem a hm, ?_⟩
        intro x hx
        rcases List.mem_cons.mp hx with rfl | hx
        · exact Nat.le_of_lt (Nat.lt_of_not_le hle)
        · exact hmin x hx

/-- One scheduler round splits `remaining` exactly: the chosen stage plus the
new remaining set is a permutation of the old remaining set (non-chosen
packages are never lost, chosen ones never duplicated). -/
theorem groupStep_partition (dOn : String → List String) (cnt : String → Nat)
    (remaining : List Config)
    (hnd : (remaining.map (·.package.name)).Nodup) (hne : remaining ≠ []) :
    ((groupStep dOn cnt remaining).1 ++ (groupStep dOn cnt remaining).2).Perm
      remaining := by
  simp only [groupStep]
  by_cases hc : (remaining.filter (fun cfg =>
      (dOn cfg.package.name).all
        (fun d => !((remaining.map (·.package.name)).contains d)))).isEmpty
  · simp only [hc, if_pos]
    cases remaining with
    | nil => exact absurd rfl hne
    | cons a t =>
      have htake : (a :: t).take 1 = [a] := by simp
      rw [htake]
      have hsort : ([a] : List Config).insertionSort
          (fun x y => cnt y.package.name ≤ cnt x.package.name) = [a] := rfl
      rw [hsort]
      have hfilt : (a :: t).filter
          (fun cfg => !((([a] : List Config).map (·.package.name)).contains
            cfg.package.name)) = t := by
        rw [List.filter_cons_of_neg (by simp)]
        apply List.filter_eq_self.mpr
        intro c hcmem
        have hna : c.package.name ≠ a.package.name := by
          intro hcc
          have : a.package.name ∈ t.map (·.package.name) :=
            List.mem_map.mpr ⟨c, hcmem, hcc⟩
          exact (List.nodup_cons.mp (by simpa using hnd)).1 this
        simpa using hna
      rw [hfilt]
      exact List.Perm.refl _
  · simp only [if_neg hc]
    have hcongr : remaining.filter (fun cfg =>
        !(((remaining.filter (fun cfg => (dOn cfg.package.name).all
            (fun d => !((remaining.map (·.package.name)).contains d)))).map
              (·.package.name)).contains cfg.package.name))
        = remaining.filter (fun cfg => !((dOn cfg.package.name).all
            (fun d => !((remaining.map (·.package.name)).contains d)))) := by
      apply List.filter_congr
      intro c hcmem
      congr 1
      by_cases hp : (dOn c.package.name).all
          (fun d => !((remaining.map (·.package.name)).contains d)) = true
      · have hmm : c.package.name ∈ (remaining.filter (fun cfg =>
            (dOn cfg.package.name).all
              (fun d => !((remaining.map (·.package.name)).contains d)))).map
                (·.package.name) :=
          List.mem_map.mpr ⟨c, List.mem_filter.mpr ⟨hcmem, hp⟩, rfl⟩
        rw [hp]
        simpa using hmm
      · have hb : (dOn c.package.name).all
            (fun d => !((remaining.map (·.package.name)).contains d)) = false :=
          Bool.eq_false_iff.mpr hp
        rw [hb]
        have hnm : c.package.name ∉ (remaining.filter (fun cfg =>
            (dOn cfg.package.name).all
              (fun d => !((remaining.map (·.package.name)).contains d)))).map
                (·.package.name) := by
          intro hmm
          rcases List.mem_map.mp hmm with ⟨c2, hc2, hc2n⟩
          have hc2r := List.mem_of_mem_filter hc2
          have : c2 = c := List.inj_on_of_nodup_map hnd hc2r hcmem hc2n
          subst this
          exact hp (List.mem_filter.mp hc2).2
        simpa using hnm
    rw [hcongr]
    refine List.Perm.trans (List.Perm.append_right _ (List.perm_insertionSort _ _))
      (List.filter_append_perm _ remaining)

/-- While packages remain, every round emits a non-empty stage (the cycle
fallback guarantees progress). -/
theorem groupStep_fst_ne_nil (dOn : String → List String) (cnt : String → Nat)
    (remaining : List Config) (hne : remaining ≠ []) :
    (groupStep dOn cnt remaining).1 ≠ [] := by
  simp only [groupStep]
  intro hnil
  have hperm := List.perm_insertionSort
    (fun a b : Config => cnt b.package.name ≤ cnt a.package.name)
    (if (remaining.filter (fun cfg => (dOn cfg.package.name).all
        (fun d => !((remaining.map (·.package.name)).contains d)))).isEmpty
      then remaining.take 1
      else remaining.filter (fun cfg => (dOn cfg.package.name).all
        (fun d => !((remaining.map (·.package.name)).contains d))))
  rw [hnil] at hperm
  have hempty := hperm.nil_eq
  by_cases hc : (remaining.filter (fun cfg => (dOn cfg.package.name).all
      (fun d => !((remaining.map (·.package.name)).contains d)))).isEmpty
  · rw [if_pos hc] at hempty
    cases remaining with
    | nil => exact hne rfl
    | cons a t => simp at hempty
  · rw [if_neg hc] at hempty
    rw [List.isEmpty_iff] at hc
    exact hc hempty.symm

/-- The new remaining set is a sublist of the old one. -/
theorem groupStep_snd_sublist (dOn : String → List String) (cnt : String → Nat)
    (remaining : List Config) :
    (groupStep dOn cnt remaining).2.Sublist remaining := by
  simp only [groupStep]
  exact List.filter_sublist _

/-- With the fuel `groupPackagesByLevel` supplies, the stages flatten to a
permutation of the initial remaining set: every package lands in exactly one
stage. -/
theorem groupLoop_flatten_perm (dOn : String → List String) (cnt : String → Nat) :
    ∀ (fuel : Nat) (remaining : List Config),
      (remaining.map (·.package.name)).Nodup → remaining.length ≤ fuel →
      (groupLoop dOn cnt fuel remaining).flatten.Perm remaining := by
  intro fuel
  induction fuel with
  | zero =>
    intro remaining _ hlen
    have h0 : remaining = [] := List.eq_nil_of_length_eq_zero (Nat.le_zero.mp hlen)
    subst h0
    simp [groupLoop]
  | succ fuel ih =>
    intro remaining hnd hlen
    rw [groupLoop]
    by_cases hre : remaining = []
    · simp [hre]
    · rw [if_neg hre]
      have hpart := groupStep_partition dOn cnt remaining hnd hre
      have hne1 := groupStep_fst_ne_nil dOn cnt remaining hre
      have hsub2 := groupStep_snd_sublist dOn cnt remaining
      have hnd2 : ((groupStep dOn cnt remaining).2.map (·.package.name)).Nodup :=
        List.Nodup.sublist (hsub2.map _) hnd
      have hlen12 : (groupStep dOn cnt remaining).1.length
          + (groupStep dOn cnt remaining).2.length = remaining.length := by
        simpa using hpart.length_eq
      have hpos : 0 < (groupStep dOn cnt remaining).1.length :=
        List.length_pos.mpr hne1
      have hlen2 : (groupStep dOn cnt remaining).2.length ≤ fuel := by omega
      have ihp := ih (groupStep dOn cnt remaining).2 hnd2 hlen2
      rw [List.flatten_cons]
      exact (List.Perm.append_left _ ihp).trans hpart

/-- Every staged package comes from the initial remaining set. -/
theorem groupLoop_mem (dOn : String → List String) (cnt : String → Nat) :
    ∀ (fuel : Nat) (remaining : List Config),
      ∀ lvl ∈ groupLoop dOn cnt fuel remaining, ∀ x ∈ lvl, x ∈ remaining := by
  intro fuel
  induction fuel with
  | zero =>
    intro remaining lvl hl
    simp [groupLoop] at hl
  | succ fuel ih =>
    intro remaining lvl hl x hx
    rw [groupLoop] at hl
    by_cases hre : remaining = []
    · simp [hre] at hl
    · rw [if_neg hre] at hl
      rcases List.mem_cons.mp hl with hl1 | hl2
      · subst hl1
        simp only [groupStep] at hx
        have hx2 := (List.perm_insertionSort
          (fun a b : Config => cnt b.package.name ≤ cnt a.package.name) _).mem_iff.mp hx
        by_cases hc : (remaining.filter (fun cfg =>
            (dOn cfg.package.name).all
              (fun d => !((remaining.map (·.package.name)).contains d)))).isEmpty
        · rw [if_pos hc] at hx2
          exact List.mem_of_mem_take hx2
        · rw [if_neg hc] at hx2
          exact List.mem_of_mem_filter hx2
      · exact (groupStep_snd_sublist dOn cnt remaining).subset
          (ih (groupStep dOn cnt remaining).2 lvl hl2 x hx)

/-- Under unique names, the `dependsOn` map of a non-root package is its own
declared dependency list. -/
theorem dependsOnOf_eq (input : List Config)
    (hnd : (input.map (·.package.name)).Nodup)
    (c : Config) (hc : c ∈ input) (hname : c.package.name ≠ "") :
    dependsOnOf input c.package.name = c.package.dependencies := by
  unfold dependsOnOf
  have hfs : input.filter (fun cfg =>
      cfg.package.name = c.package.name ∧ cfg.package.name ≠ "") = [c] := by
    apply filter_eq_singleton input _ c (hnd.of_map _) hc
    · simp [hname]
    · intro x hx hxc
      have hxn : x.package.name ≠ c.package.name := by
        intro heq
        exact hxc (List.inj_on_of_nodup_map hnd hx hc heq)
      simp [hxn]
  rw [hfs]
  simp

/-- Stage soundness under a topological ranking: when the dependency graph
restricted to `remaining` is acyclic, a round always finds candidate packages
(so the cycle fallback never fires), and every dependency of a stage-`k`
package that names a remaining package lies in an earlier stage; at `k = 0`
no such dependency exists at all. -/
theorem groupLoop_sound (dOn : String → List String) (cnt : String → Nat)
    (rank : String → Nat) :
    ∀ (fuel : Nat) (remaining : List Config),
      (remaining.map (·.package.name)).Nodup → remaining.length ≤ fuel →
      (∀ c ∈ remaining, ∀ d ∈ dOn c.package.name,
        d ∈ remaining.map (·.package.name) → rank d < rank c.package.name) →
      ∀ (k : Nat) (hk : k < (groupLoop dOn cnt fuel remaining).length),
        ∀ cfg ∈ (groupLoop dOn cnt fuel remaining).get ⟨k, hk⟩,
          ∀ d ∈ dOn cfg.package.name, d ∈ remaining.map (·.package.name) →
            ∃ (j : Nat) (hj : j < (groupLoop dOn cnt fuel remaining).length),
              j < k ∧ d ∈ ((groupLoop dOn cnt fuel remaining).get ⟨j, hj⟩).map
                (·.package.name) := by
  intro fuel
  induction fuel with
  | zero =>
    intro remaining _ _ _ k hk
    simp [groupLoop] at hk
  | succ fuel ih =>
    intro remaining hnd hlen hH k hk cfg hcfg d hd hdin
    by_cases hre : remaining = []
    · subst hre
      rw [groupLoop] at hk
      simp at hk
    · have hcand_ne : remaining.filter (fun cfg =>
          (dOn cfg.package.name).all
            (fun d => !((remaining.map (·.package.name)).contains d))) ≠ [] := by
        obtain ⟨m, hm, hmin⟩ := list_exists_min_image remaining
          (fun c => rank c.package.name) hre
        have hmf : m ∈ remaining.filter (fun cfg =>
            (dOn cfg.package.name).all
              (fun d => !((remaining.map (·.package.name)).contains d))) := by
          refine List.mem_filter.mpr ⟨hm, ?_⟩
          apply List.all_eq_true.mpr
          intro d2 hd2
          have hd2notin : d2 ∉ remaining.map (·.package.name) := by
            intro hd2in
            have hlt := hH m hm d2 hd2 hd2in
            rcases List.mem_map.mp hd2in with ⟨c2, hc2, hc2n⟩
            have hge := hmin c2 hc2
            rw [hc2n] at hge
            omega
          simpa using hd2notin
        exact List.ne_nil_of_mem hmf
      have hcif : ¬ ((remaining.filter (fun cfg =>
          (dOn cfg.package.name).all
            (fun d => !((remaining.map (·.package.name)).contains d)))).isEmpty
            = true) := by
        rw [List.isEmpty_iff]
        exact hcand_ne
      have hpart := groupStep_partition dOn cnt remaining hnd hre
      have hne1 := groupStep_fst_ne_nil dOn cnt remaining hre
      have hsub2 := groupStep_snd_sublist dOn cnt remaining
      have hnd2 : ((groupStep dOn cnt remaining).2.map (·.package.name)).Nodup :=
        List.Nodup.sublist (hsub2.map _) hnd
      have hlen12 : (groupStep dOn cnt remaining).1.length
          + (groupStep dOn cnt remaining).2.length = remaining.length := by
        simpa using hpart.length_eq
      have hpos : 0 < (groupStep dOn cnt remaining).1.length :=
        List.length_pos.mpr hne1
      have hlen2 : (groupStep dOn cnt remaining).2.length ≤ fuel := by omega
      have hH2 : ∀ c ∈ (groupStep dOn cnt remaining).2, ∀ d2 ∈ dOn c.package.name,
          d2 ∈ (groupStep dOn cnt remaining).2.map (·.package.name) →
          rank d2 < rank c.package.name := by
        intro c hcm d2 hd2 hd2in
        refine hH c (hsub2.subset hcm) d2 hd2 ?_
        exact (hsub2.map (·.package.name)).subset hd2in
      have heq : groupLoop dOn cnt (fuel + 1) remaining
          = (groupStep dOn cnt remaining).1 ::
            groupLoop dOn cnt fuel (groupStep dOn cnt remaining).2 := by
        rw [groupLoop, if_neg hre]
      cases k with
      | zero =>
        exfalso
        have hget0 : (groupLoop dOn cnt (fuel + 1) remaining).get ⟨0, hk⟩
            = (groupStep dOn cnt remaining).1 := List.get_of_eq heq ⟨0, hk⟩
        rw [hget0] at hcfg
        simp only [groupStep] at hcfg
        have hx2 := (List.perm_insertionSort
          (fun a b : Config => cnt b.package.name ≤ cnt a.package.name) _).mem_iff.mp
            hcfg
        rw [if_neg hcif] at hx2
        have hall := (List.mem_filter.mp hx2).2
        have hnotin := List.all_eq_true.mp hall d hd
        have hdno : d ∉ remaining.map (·.package.name) := by
          intro hm
          have hcont : (remaining.map (·.package.name)).contains d = true := by
            simpa using hm
          rw [hcont] at hnotin
          simp at hnotin
        exact hdno hdin
      | succ k2 =>
        have hlenq : (groupLoop dOn cnt (fuel + 1) remaining).length
            = (groupLoop dOn cnt fuel (groupStep dOn cnt remaining).2).length + 1 := by
          rw [heq]
          simp
        have hk2 : k2 < (groupLoop dOn cnt fuel
            (groupStep dOn cnt remaining).2).length := by omega
        have hget : (groupLoop dOn cnt (fuel + 1) remaining).get ⟨k2 + 1, hk⟩
            = (groupLoop dOn cnt fuel (groupStep dOn cnt remaining).2).get
                ⟨k2, hk2⟩ := List.get_of_eq heq ⟨k2 + 1, hk⟩
        rw [hget] at hcfg
        have hdsplit : d ∈ ((groupStep dOn cnt remaining).1.map (·.package.name))
            ∨ d ∈ ((groupStep dOn cnt remaining).2.map (·.package.name)) := by
          have hmap := hpart.map (·.package.name)
          have hdm : d ∈ ((groupStep dOn cnt remaining).1
              ++ (groupStep dOn cnt remaining).2).map (·.package.name) :=
            hmap.mem_iff.mpr hdin
          rw [List.map_append] at hdm
          exact List.mem_append.mp hdm
        rcases hdsplit with hd1 | hd2
        · refine ⟨0, by omega, Nat.succ_pos k2, ?_⟩
          have hg0 : (groupLoop dOn cnt (fuel + 1) remaining).get ⟨0, by omega⟩
              = (groupStep dOn cnt remaining).1 := List.get_of_eq heq ⟨0, by omega⟩
          rw [hg0]
          exact hd1
        · obtain ⟨j, hj, hjlt, hjmem⟩ := ih (groupStep dOn cnt remaining).2 hnd2
            hlen2 hH2 k2 hk2 cfg hcfg d hd hd2
          refine ⟨j + 1, by omega, Nat.succ_lt_succ hjlt, ?_⟩
          have hgj : (groupLoop dOn cnt (fuel + 1) remaining).get ⟨j + 1, by omega⟩
              = (groupLoop dOn cnt fuel (groupStep dOn cnt remaining).2).get
                  ⟨j, hj⟩ := List.get_of_eq heq ⟨j + 1, by omega⟩
          rw [hgj]
          exact hjmem

theorem C4_stage_partition (input : List Config)
    (hnd : (input.map (·.package.name)).Nodup) :
    (groupPackagesByLevel input).flatten.Perm
        (input.filter (fun cfg => cfg.package.name ≠ ""))
    ∧ (StageAcyclic input →
        ∀ (k : Nat) (hk : k < (groupPackagesByLevel input).length),
          ∀ cfg ∈ (groupPackagesByLevel input).get ⟨k, hk⟩,
            ∀ d ∈ cfg.package.dependencies, d ∈ inputPackageNames input →
              ∃ (j : Nat) (hj : j < (groupPackagesByLevel input).length), j < k
                ∧ d ∈ ((groupPackagesByLevel input).get ⟨j, hj⟩).map
                    (·.package.name)) := by
  have hnd0 : ((input.filter (fun cfg => cfg.package.name ≠ "")).map
      (·.package.name)).Nodup :=
    List.Nodup.sublist ((List.filter_sublist input).map _) hnd
  constructor
  · exact groupLoop_flatten_perm (dependsOnOf input) (dependentCount input)
      (input.filter (fun cfg => cfg.package.name ≠ "")).length
      (input.filter (fun cfg => cfg.package.name ≠ "")) hnd0 (Nat.le_refl _)
  · rintro ⟨rank, hrank⟩ k hk cfg hcfg d hd hdin
    simp only [groupPackagesByLevel] at hk hcfg ⊢
    have hH : ∀ c ∈ input.filter (fun cfg => cfg.package.name ≠ ""),
        ∀ d2 ∈ dependsOnOf input c.package.name,
        d2 ∈ (input.filter (fun cfg => cfg.package.name ≠ "")).map
          (·.package.name) →
        rank d2 < rank c.package.name := by
      intro c hcm d2 hd2 hd2in
      have hcin := List.mem_of_mem_filter hcm
      have hcne : c.package.name ≠ "" := by
        have := (List.mem_filter.mp hcm).2
        simpa using this
      rw [dependsOnOf_eq input hnd c hcin hcne] at hd2
      exact hrank c hcin hcne d2 hd2 hd2in
    have hcfgmem : cfg ∈ input.filter (fun cfg => cfg.package.name ≠ "") :=
      groupLoop_mem (dependsOnOf input) (dependentCount input)
        (input.filter (fun cfg => cfg.package.name ≠ "")).length
        (input.filter (fun cfg => cfg.package.name ≠ "")) _
        (List.get_mem _ _ hk) cfg hcfg
    exact groupLoop_sound (dependsOnOf input) (dependentCount input) rank
      (input.filter (fun cfg => cfg.package.name ≠ "")).length
      (input.filter (fun cfg => cfg.package.name ≠ "")) hnd0 (Nat.le_refl _) hH
      k hk cfg hcfg d (by
        rw [dependsOnOf_eq input hnd cfg (List.mem_of_mem_filter hcfgmem)
          (by simpa using (List.mem_filter.mp hcfgmem).2)]
        exact hd) hdin

/-- Claim C4 (counterexample to the unconditional ordering clause): a
self-cycle `a → a` is force-scheduled into stage 0 although its dependency
`a` is present in the input set, so "stage 0 contains only packages with no
dependencies resolvable within the input set" fails on cyclic inputs. -/
theorem C4_counterexample_cycle_stage0 :
    groupPackagesByLevel [mkConfig "a" ["a"]] = [[mkConfig "a" ["a"]]]
    ∧ "a" ∈ (mkConfig "a" ["a"]).package.dependencies
    ∧ "a" ∈ inputPackageNames [mkConfig "a" ["a"]] := by
  refine ⟨by decide, by decide, by decide⟩

/-- Witness for C4 at the spec scenario `util ← core ← app`: the stages
partition the catalog and `core`'s dependency `util` sits in an earlier
stage. -/
theorem C4_stage_partition_witness :
    ((demoChain.map (·.package.name)).Nodup
      ∧ StageAcyclic demoChain)
    ∧ (groupPackagesByLevel demoChain).flatten.Perm
        (demoChain.filter (fun cfg => cfg.package.name ≠ ""))
    ∧ ∃ (j : Nat) (hj : j < (groupPackagesByLevel demoChain).length), j < 1
        ∧ "util" ∈ ((groupPackagesByLevel demoChain).get ⟨j, hj⟩).map
            (·.package.name) := by
  have hac : StageAcyclic demoChain :=
    ⟨fun n => if n = "util" then 0 else if n = "core" then 1 else 2, by decide⟩
  obtain ⟨h1, h2⟩ := C4_stage_partition demoChain (by decide)
  refine ⟨⟨by decide, hac⟩, h1, ?_⟩
  exact h2 hac 1 (by decide) (mkConfig "core" ["util"]) (by decide) "util"
    (by decide) (by decide)

/-! ## Claims C2 and C3 — the resolver: Kahn's algorithm

The lemmas below characterise `nodeMapOf`, `graphAdj` and the in-degree
counters, prove the invariants of the Kahn worklist loop, and derive the two
resolver claims: the output is a permutation of the input (C3, cycles
included), and on acyclic graphs it is dependency-first (C2). -/

theorem nodeMapOf_go_eq (packages : List Config) (m : String → Option Config)
    (n : String) (hn : n ∉ packages.map (·.package.name)) :
    (packages.foldl
      (fun m cfg => fun k => if k = cfg.package.name then some cfg else m k) m) n
      = m n := by
  induction packages generalizing m with
  | nil => rfl
  | cons c rest ih =>
    simp only [List.map_cons, List.mem_cons] at hn
    push_neg at hn
    simp only [List.foldl_cons]
    rw [ih _ hn.2]
    simp [hn.1]

theorem nodeMapOf_go_some (packages : List Config) :
    ∀ (m : String → Option Config) (n : String) (c : Config),
    (packages.foldl
      (fun m cfg => fun k => if k = cfg.package.name then some cfg else m k) m) n
      = some c →
    (c ∈ packages ∧ c.package.name = n) ∨ m n = some c := by
  induction packages with
  | nil => intro m n c h2; exact Or.inr h2
  | cons d rest ih =>
    intro m n c h2
    simp only [List.foldl_cons] at h2
    rcases ih _ n c h2 with hk | hk
    · exact Or.inl ⟨List.mem_cons_of_mem d hk.1, hk.2⟩
    · by_cases hnd2 : n = d.package.name
      · rw [if_pos hnd2] at hk
        have hdc : d = c := by injection hk
        subst hdc
        exact Or.inl ⟨List.mem_cons_self d rest, hnd2.symm⟩
      · rw [if_neg hnd2] at hk
        exact Or.inr hk

theorem nodeMapOf_some (packages : List Config) (n : String) (c : Config)
    (h : nodeMapOf packages n = some c) :
    c ∈ packages ∧ c.package.name = n := by
  unfold nodeMapOf at h
  rcases nodeMapOf_go_some packages _ n c h with hk | hk
  · exact hk
  · simp at hk

theorem nodeMapOf_go_isSome (packages : List Config) :
    ∀ (m : String → Option Config) (n : String),
    n ∈ packages.map (·.package.name) →
    ((packages.foldl
      (fun m cfg => fun k => if k = cfg.package.name then some cfg else m k) m) n).isSome
      = true := by
  induction packages with
  | nil => intro m n hn; simp at hn
  | cons d rest ih =>
    intro m n hn
    simp only [List.foldl_cons]
    by_cases hr : n ∈ rest.map (·.package.name)
    · exact ih _ n hr
    · have heq : n = d.package.name := by
        have hn2 : n = d.package.name ∨ ∃ a ∈ rest, a.package.name = n := by
          simpa using hn
        rcases hn2 with h1 | ⟨a, ha, han⟩
        · exact h1
        · exact absurd (List.mem_map.mpr ⟨a, ha, han⟩) hr
      rw [nodeMapOf_go_eq rest _ n hr]
      simp [heq]

theorem nodeMapOf_isSome_iff (packages : List Config) (n : String) :
    (nodeMapOf packages n).isSome = true ↔ n ∈ packages.map (·.package.name) := by
  constructor
  · intro h
    rcases Option.isSome_iff_exists.mp h with ⟨c, hc⟩
    obtain ⟨hmem, hname⟩ := nodeMapOf_some packages n c hc
    exact List.mem_map.mpr ⟨c, hmem, hname⟩
  · intro h
    exact nodeMapOf_go_isSome packages _ n h

theorem nodeMapOf_go_self (packages : List Config) :
    ∀ (m : String → Option Config),
    (packages.map (·.package.name)).Nodup →
    ∀ c ∈ packages,
    (packages.foldl
      (fun m cfg => fun k => if k = cfg.package.name then some cfg else m k) m)
        c.package.name = some c := by
  induction packages with
  | nil => intro m _ c hc; simp at hc
  | cons d rest ih =>
    intro m hnd c hc
    simp only [List.foldl_cons]
    rcases List.mem_cons.mp hc with rfl | hcr
    · have hnotin : c.package.name ∉ rest.map (·.package.name) :=
        (List.nodup_cons.mp (by simpa using hnd)).1
      rw [nodeMapOf_go_eq rest _ _ hnotin]
      simp
    · exact ih _ (List.nodup_cons.mp (by simpa using hnd)).2 c hcr

theorem nodeMapOf_self (packages : List Config)
    (hnd : (packages.map (·.package.name)).Nodup)
    (c : Config) (hc : c ∈ packages) :
    nodeMapOf packages (c.package.name) = some c :=
  nodeMapOf_go_self packages _ hnd c hc

theorem graphAdj_eq (packages : List Config)
    (hnd : (packages.map (·.package.name)).Nodup)
    (c : Config) (hc : c ∈ packages) :
    graphAdj packages c.package.name
      = c.package.dependencies.filter (depResolvable packages) := by
  unfold graphAdj
  have hfs : packages.filter (fun cfg => cfg.package.name = c.package.name) = [c] := by
    apply filter_eq_singleton packages _ c (hnd.of_map _) hc
    · simp
    · intro x hx hxc
      have hxn : x.package.name ≠ c.package.name := by
        intro heq
        exact hxc (List.inj_on_of_nodup_map hnd hx hc heq)
      simp [hxn]
  rw [hfs]
  simp

theorem graphAdj_mem_name (packages : List Config) (u x : String)
    (h : x ∈ graphAdj packages u) : u ∈ packages.map (·.package.name) := by
  unfold graphAdj at h
  rcases List.mem_flatMap.mp h with ⟨cfg, hcfg, _⟩
  have h1 := List.mem_filter.mp hcfg
  refine List.mem_map.mpr ⟨cfg, h1.1, ?_⟩
  simpa using h1.2

theorem graphAdj_target_name (packages : List Config) (u x : String)
    (h : x ∈ graphAdj packages u) : x ∈ packages.map (·.package.name) := by
  unfold graphAdj at h
  rcases List.mem_flatMap.mp h with ⟨cfg, _, hx⟩
  have h2 := List.mem_filter.mp hx
  exact (nodeMapOf_isSome_iff packages x).mp (by simpa [depResolvable] using h2.2)

theorem graphAdj_edge_spec (packages : List Config) (u x : String) :
    x ∈ graphAdj packages u
      ↔ ∃ cfg ∈ packages, cfg.package.name = u ∧ x ∈ cfg.package.dependencies
          ∧ depResolvable packages x = true := by
  unfold graphAdj
  constructor
  · intro h
    rcases List.mem_flatMap.mp h with ⟨cfg, hcfg, hx⟩
    have h1 := List.mem_filter.mp hcfg
    have h2 := List.mem_filter.mp hx
    exact ⟨cfg, h1.1, by simpa using h1.2, h2.1, h2.2⟩
  · rintro ⟨cfg, hcfg, hname, hdep, hres⟩
    exact List.mem_flatMap.mpr ⟨cfg, List.mem_filter.mpr ⟨hcfg, by simpa using hname⟩,
      List.mem_filter.mpr ⟨hdep, hres⟩⟩

theorem sublist_flatMap {m : Type} (g : m → List String) (l1 l2 : List m)
    (h : l1.Sublist l2) : (l1.flatMap g).Sublist (l2.flatMap g) := by
  induction h with
  | slnil => exact List.Sublist.refl _
  | cons a hs ih =>
    rw [List.flatMap_cons]
    exact ih.trans (List.sublist_append_right _ _)
  | cons₂ a hs ih =>
    rw [List.flatMap_cons, List.flatMap_cons]
    exact ih.append_left _

theorem count_flatMap_mono (g : String → List String) (l1 l2 : List String)
    (hnd : l1.Nodup) (hsub : l1 ⊆ l2) (x : String) :
    (l1.flatMap g).count x ≤ (l2.flatMap g).count x := by
  rcases List.subperm_of_subset hnd hsub with ⟨l', hperm, hsl⟩
  calc (l1.flatMap g).count x
      = (l'.flatMap g).count x := (hperm.flatMap_right g).symm.count_eq x
    _ ≤ (l2.flatMap g).count x := (sublist_flatMap g l' l2 hsl).count_le x

theorem flatMap_congr_left {m : Type} (l : List m) (f g : m → List String)
    (h : ∀ a ∈ l, f a = g a) : l.flatMap f = l.flatMap g := by
  induction l with
  | nil => rfl
  | cons a t ih =>
    rw [List.flatMap_cons, List.flatMap_cons, h a (List.mem_cons_self a t),
      ih (fun x hx => h x (List.mem_cons_of_mem a hx))]

theorem inDegreeInit_eq_keys_flat (packages : List Config)
    (hnd : (packages.map (·.package.name)).Nodup) (n : String) :
    inDegreeInit packages n
      = (((packages.map (·.package.name)).flatMap (graphAdj packages)).count n) := by
  unfold inDegreeInit
  rw [List.flatMap_map]
  congr 1
  exact flatMap_congr_left packages _ _
    (fun c hc => (graphAdj_eq packages hnd c hc).symm)

theorem kahnFold_spec (ds : List String) :
    ∀ (f : String → Int) (q : List String),
      q.Nodup →
      (∀ x ∈ q, f x = 0) →
      (∀ x ∈ ds, (ds.count x : Int) ≤ f x) →
      (∀ x, (kahnFold ds f q).1 x = f x - ds.count x)
      ∧ q ⊆ (kahnFold ds f q).2
      ∧ (kahnFold ds f q).2.Nodup
      ∧ (∀ x ∈ (kahnFold ds f q).2, (kahnFold ds f q).1 x = 0)
      ∧ (∀ x ∈ (kahnFold ds f q).2, x ∈ q ∨ x ∈ ds)
      ∧ (∀ x ∈ ds, (kahnFold ds f q).1 x = 0 → x ∈ (kahnFold ds f q).2) := by
  induction ds with
  | nil =>
    intro f q hq hq0 _
    refine ⟨by simp [kahnFold], by simp [kahnFold], by simpa [kahnFold] using hq,
      by simpa [kahnFold] using hq0, ?_, by simp⟩
    intro x hx
    exact Or.inl (by simpa [kahnFold] using hx)
  | cons e rest ih =>
    intro f q hq hq0 hcnt
    have heq : kahnFold (e :: rest) f q
        = kahnFold rest (fun k => if k = e then f e - 1 else f k)
            (if f e - 1 = 0 then q ++ [e] else q) := by
      simp [kahnFold]
    have henotq : e ∉ q := by
      intro hc
      have h0 := hq0 e hc
      have h1 := hcnt e (List.mem_cons_self e rest)
      rw [h0] at h1
      have : (0 : Int) < (List.count e (e :: rest) : Int) := by
        have : 0 < List.count e (e :: rest) := by
          simp [List.count_cons]
        exact_mod_cast this
      omega
    set f1 : String → Int := fun k => if k = e then f e - 1 else f k with hf1
    set q1 : List String := if f e - 1 = 0 then q ++ [e] else q with hq1
    have hq1nd : q1.Nodup := by
      rw [hq1]
      by_cases hfe : f e - 1 = 0
      · rw [if_pos hfe]
        rw [List.nodup_append]
        exact ⟨hq, List.nodup_singleton e, by simpa using henotq⟩
      · rw [if_neg hfe]
        exact hq
    have hq10 : ∀ x ∈ q1, f1 x = 0 := by
      intro x hx
      rw [hq1] at hx
      by_cases hfe : f e - 1 = 0
      · rw [if_pos hfe] at hx
        rcases List.mem_append.mp hx with hx | hx
        · have hxe : x ≠ e := fun hc => henotq (hc ▸ hx)
          rw [hf1]
          simp only [if_neg hxe]
          exact hq0 x hx
        · have hxe : x = e := by simpa using hx
          subst hxe
          rw [hf1]
          simpa using hfe
      · rw [if_neg hfe] at hx
        have hxe : x ≠ e := fun hc => henotq (hc ▸ hx)
        rw [hf1]
        simp only [if_neg hxe]
        exact hq0 x hx
    have hcnt1 : ∀ x ∈ rest, ((rest.count x : Int)) ≤ f1 x := by
      intro x hx
      rw [hf1]
      by_cases hxe : x = e
      · subst hxe
        have := hcnt x (List.mem_cons_self x rest)
        simp only [if_pos rfl]
        rw [List.count_cons_self] at this
        push_cast at this
        omega
      · simp only [if_neg hxe]
        have := hcnt x (List.mem_cons_of_mem e hx)
        rwa [List.count_cons_of_ne hxe] at this
    obtain ⟨c1, c2, c3, c4, c5, c6⟩ := ih f1 q1 hq1nd hq10 hcnt1
    rw [heq]
    refine ⟨?_, ?_, c3, c4, ?_, ?_⟩
    · intro x
      rw [c1 x, hf1]
      by_cases hxe : x = e
      · subst hxe
        simp only [if_pos rfl]
        rw [List.count_cons_self]
        push_cast
        omega
      · simp only [if_neg hxe]
        rw [List.count_cons_of_ne hxe]
    · intro x hx
      apply c2
      rw [hq1]
      by_cases hfe : f e - 1 = 0
      · rw [if_pos hfe]
        exact List.mem_append_left _ hx
      · rw [if_neg hfe]
        exact hx
    · intro x hx
      rcases c5 x hx with hx1 | hx1
      · rw [hq1] at hx1
        by_cases hfe : f e - 1 = 0
        · rw [if_pos hfe] at hx1
          rcases List.mem_append.mp hx1 with hx2 | hx2
          · exact Or.inl hx2
          · right
            have : x = e := by simpa using hx2
            subst this
            exact List.mem_cons_self x rest
        · rw [if_neg hfe] at hx1
          exact Or.inl hx1
      · exact Or.inr (List.mem_cons_of_mem e hx1)
    · intro x hx hfx
      by_cases hxr : x ∈ rest
      · exact c6 x hxr hfx
      · have hxe : x = e := by
          rcases List.mem_cons.mp hx with h1 | h1
          · exact h1
          · exact absurd h1 hxr
        subst hxe
        have hcountrest : rest.count x = 0 := List.count_eq_zero.mpr hxr
        have hre : (kahnFold rest f1 q1).1 x = f1 x := by
          rw [c1 x, hcountrest]
          simp
        rw [hre] at hfx
        rw [hf1] at hfx
        have hfx2 : f x - 1 = 0 := by simpa using hfx
        apply c2
        rw [hq1, if_pos hfx2]
        exact List.mem_append_right _ (by simp)

theorem kahnLoop_zero (packages : List Config) (queue : List String)
    (inDeg : String → Int) (order : List Config) :
    kahnLoop packages 0 queue inDeg order = order := rfl

theorem kahnLoop_nilq (packages : List Config) (fuel : Nat)
    (inDeg : String → Int) (order : List Config) :
    kahnLoop packages (fuel + 1) [] inDeg order = order := rfl

theorem kahnLoop_cons (packages : List Config) (fuel : Nat) (node : String)
    (rest : List String) (inDeg : String → Int) (order : List Config) :
    kahnLoop packages (fuel + 1) (node :: rest) inDeg order
      = kahnLoop packages fuel (kahnVisit packages node inDeg rest).2
          (kahnVisit packages node inDeg rest).1
          (order ++ (nodeMapOf packages node).toList) := rfl

theorem list_exists_max_image (l : List String) (f : String → Nat) (h : l ≠ []) :
    ∃ m ∈ l, ∀ x ∈ l, f x ≤ f m := by
  induction l with
  | nil => exact absurd rfl h
  | cons a t ih =>
    by_cases ht : t = []
    · subst ht
      exact ⟨a, by simp, by simp⟩
    · obtain ⟨m, hm, hmax⟩ := ih ht
      by_cases hle : f m ≤ f a
      · refine ⟨a, by simp, ?_⟩
        intro x hx
        rcases List.mem_cons.mp hx with rfl | hx
        · exact Nat.le_refl _
        · exact Nat.le_trans (hmax x hx) hle
      · refine ⟨m, List.mem_cons_of_mem a hm, ?_⟩
        intro x hx
        rcases List.mem_cons.mp hx with rfl | hx
        · exact Nat.le_of_lt (Nat.lt_of_not_le hle)
        · exact hmax x hx

theorem kahnLoop_spec (packages : List Config)
    (hnd : (packages.map (·.package.name)).Nodup) :
    ∀ (fuel : Nat) (queue : List String) (inDeg : String → Int) (order : List Config),
    (order.map (·.package.name) ++ queue).Nodup →
    (∀ n ∈ queue, n ∈ packages.map (·.package.name)) →
    (∀ c ∈ order, c ∈ packages) →
    (∀ n, inDeg n = (inDegreeInit packages n : Int)
      - ((order.flatMap (fun c => graphAdj packages c.package.name)).count n : Int)) →
    (∀ n ∈ packages.map (·.package.name),
      n ∉ order.map (·.package.name) → n ∉ queue → 0 < inDeg n) →
    (∀ n ∈ queue, inDeg n = 0) →
    (∀ (i : Nat) (hi : i < order.length) (u : String),
      (order.get ⟨i, hi⟩).package.name ∈ graphAdj packages u →
      ∃ (j : Nat) (hj : j < order.length),
        j < i ∧ (order.get ⟨j, hj⟩).package.name = u) →
    packages.length ≤ fuel + order.length →
    (∃ ext, kahnLoop packages fuel queue inDeg order = order ++ ext)
    ∧ ((kahnLoop packages fuel queue inDeg order).map (·.package.name)).Nodup
    ∧ (∀ c ∈ kahnLoop packages fuel queue inDeg order, c ∈ packages)
    ∧ (∀ (i : Nat) (hi : i < (kahnLoop packages fuel queue inDeg order).length)
        (u : String),
        ((kahnLoop packages fuel queue inDeg order).get ⟨i, hi⟩).package.name
          ∈ graphAdj packages u →
        ∃ (j : Nat) (hj : j < (kahnLoop packages fuel queue inDeg order).length),
          j < i
          ∧ ((kahnLoop packages fuel queue inDeg order).get ⟨j, hj⟩).package.name = u)
    ∧ (∀ n ∈ packages.map (·.package.name),
        n ∉ (kahnLoop packages fuel queue inDeg order).map (·.package.name) →
        ((kahnLoop packages fuel queue inDeg order).flatMap
            (fun c => graphAdj packages c.package.name)).count n
          < inDegreeInit packages n) := by
  intro fuel
  induction fuel with
  | zero =>
    intro queue inDeg order I1 I2 I3 I4 I5 _ I7 hfuel
    have hqnil : queue = [] := by
      have hsub : (order.map (·.package.name) ++ queue)
          ⊆ packages.map (·.package.name) := by
        intro x hx
        rcases List.mem_append.mp hx with hx | hx
        · rcases List.mem_map.mp hx with ⟨c, hc, rfl⟩
          exact List.mem_map.mpr ⟨c, I3 c hc, rfl⟩
        · exact I2 x hx
      have hlen := (List.subperm_of_subset I1 hsub).length_le
      simp only [List.length_append, List.length_map] at hlen
      exact List.eq_nil_of_length_eq_zero (by omega)
    rw [kahnLoop_zero]
    refine ⟨⟨[], by simp⟩, I1.of_append_left, I3, I7, ?_⟩
    intro n hn hnotin
    have h5 := I5 n hn hnotin (by rw [hqnil]; exact List.not_mem_nil n)
    rw [I4 n] at h5
    omega
  | succ fuel ihf =>
    intro queue inDeg order I1 I2 I3 I4 I5 I6 I7 hfuel
    cases queue with
    | nil =>
      rw [kahnLoop_nilq]
      refine ⟨⟨[], by simp⟩, I1.of_append_left, I3, I7, ?_⟩
      intro n hn hnotin
      have h5 := I5 n hn hnotin (List.not_mem_nil n)
      rw [I4 n] at h5
      omega
    | cons node rest =>
      have hnodeq : node ∈ packages.map (·.package.name) :=
        I2 node (List.mem_cons_self node rest)
      obtain ⟨cnode, hcnode⟩ : ∃ c, nodeMapOf packages node = some c :=
        Option.isSome_iff_exists.mp ((nodeMapOf_isSome_iff packages node).mpr hnodeq)
      obtain ⟨hcnmem, hcnname⟩ := nodeMapOf_some packages node cnode hcnode
      have hnode_not_order : node ∉ order.map (·.package.name) := fun hx =>
        (List.disjoint_of_nodup_append I1) hx (List.mem_cons_self node rest)
      have hrest_nd : rest.Nodup := (I1.of_append_right).of_cons
      have hnode_not_rest : node ∉ rest := (List.nodup_cons.mp I1.of_append_right).1
      have hstep : kahnLoop packages (fuel + 1) (node :: rest) inDeg order
          = kahnLoop packages fuel
              (kahnFold (graphAdj packages node) inDeg rest).2
              (kahnFold (graphAdj packages node) inDeg rest).1 (order ++ [cnode]) := by
        rw [kahnLoop_cons, hcnode]
        rfl
      have hofm : order.flatMap (fun c => graphAdj packages c.package.name)
          = (order.map (·.package.name)).flatMap (graphAdj packages) := by
        rw [List.flatMap_map]
      have hnodup_on : ((order.map (·.package.name)) ++ [node]).Nodup := by
        have hsl : ((order.map (·.package.name)) ++ [node]).Sublist
            ((order.map (·.package.name)) ++ node :: rest) :=
          (List.singleton_sublist.mpr (List.mem_cons_self node rest)).append_left _
        exact List.Nodup.sublist hsl I1
      have hsub_on : ((order.map (·.package.name)) ++ [node])
          ⊆ packages.map (·.package.name) := by
        intro x hx
        rcases List.mem_append.mp hx with hx | hx
        · rcases List.mem_map.mp hx with ⟨c, hc, rfl⟩
          exact List.mem_map.mpr ⟨c, I3 c hc, rfl⟩
        · rcases List.mem_singleton.mp hx with rfl
          exact hnodeq
      have hcntkey : ∀ x ∈ graphAdj packages node,
          ((graphAdj packages node).count x : Int) ≤ inDeg x := by
        intro x hx
        have h1 := count_flatMap_mono (graphAdj packages) _ _ hnodup_on hsub_on x
        rw [List.flatMap_append] at h1
        have h2 : ([node].flatMap (graphAdj packages)) = graphAdj packages node := by
          simp
        rw [h2, List.count_append] at h1
        rw [← inDegreeInit_eq_keys_flat packages hnd x] at h1
        rw [I4 x, hofm]
        omega
      have hrest0 : ∀ x ∈ rest, inDeg x = 0 :=
        fun x hx => I6 x (List.mem_cons_of_mem node hx)
      obtain ⟨c1, c2, c3, c4, c5, c6⟩ :=
        kahnFold_spec (graphAdj packages node) inDeg rest hrest_nd hrest0 hcntkey
      have hds_not_order : ∀ x ∈ graphAdj packages node,
          x ∉ order.map (·.package.name) := by
        intro x hx hxo
        rcases List.mem_map.mp hxo with ⟨c, hc, hcx⟩
        rcases List.mem_iff_get.mp hc with ⟨⟨i, hi⟩, hgi⟩
        have hmem : (order.get ⟨i, hi⟩).package.name ∈ graphAdj packages node := by
          rw [hgi, hcx]; exact hx
        obtain ⟨j, hj, _, hgj⟩ := I7 i hi node hmem
        exact hnode_not_order
          (List.mem_map.mpr ⟨order.get ⟨j, hj⟩, List.get_mem _ _ _, hgj⟩)
      have hds_not_node : node ∉ graphAdj packages node := by
        intro hx
        have h1 := hcntkey node hx
        rw [I6 node (List.mem_cons_self node rest)] at h1
        have h2 : 0 < (graphAdj packages node).count node := List.count_pos_iff.mpr hx
        omega
      have hI1' : ((order ++ [cnode]).map (·.package.name)
          ++ (kahnFold (graphAdj packages node) inDeg rest).2).Nodup := by
        rw [List.map_append]
        have hmap : [cnode].map (·.package.name) = [node] := by simp [hcnname]
        rw [hmap, List.nodup_append]
        refine ⟨hnodup_on, c3, ?_⟩
        intro x hx hx2
        rcases c5 x hx2 with hxr | hxd
        · rcases List.mem_append.mp hx with hxo | hxn
          · exact (List.disjoint_of_nodup_append I1) hxo (List.mem_cons_of_mem node hxr)
          · rcases List.mem_singleton.mp hxn with rfl
            exact hnode_not_rest hxr
        · rcases List.mem_append.mp hx with hxo | hxn
          · exact hds_not_order x hxd hxo
          · rcases List.mem_singleton.mp hxn with rfl
            exact hds_not_node hxd
      have hI2' : ∀ n ∈ (kahnFold (graphAdj packages node) inDeg rest).2,
          n ∈ packages.map (·.package.name) := by
        intro n hn
        rcases c5 n hn with h | h
        · exact I2 n (List.mem_cons_of_mem node h)
        · exact graphAdj_target_name packages node n h
      have hI3' : ∀ c ∈ order ++ [cnode], c ∈ packages := by
        intro c hc
        rcases List.mem_append.mp hc with h | h
        · exact I3 c h
        · rcases List.mem_singleton.mp h with rfl
          exact hcnmem
      have hflat' : (order ++ [cnode]).flatMap (fun c => graphAdj packages c.package.name)
          = order.flatMap (fun c => graphAdj packages c.package.name)
            ++ graphAdj packages node := by
        rw [List.flatMap_append]
        simp [hcnname]
      have hI4' : ∀ n, (kahnFold (graphAdj packages node) inDeg rest).1 n
          = (inDegreeInit packages n : Int)
            - (((order ++ [cnode]).flatMap
                (fun c => graphAdj packages c.package.name)).count n : Int) := by
        intro n
        rw [c1 n, I4 n, hflat', List.count_append]
        push_cast
        ring
      have hI5' : ∀ n ∈ packages.map (·.package.name),
          n ∉ (order ++ [cnode]).map (·.package.name) →
          n ∉ (kahnFold (graphAdj packages node) inDeg rest).2 →
          0 < (kahnFold (graphAdj packages node) inDeg rest).1 n := by
        intro n hn hno hnq
        have hno1 : n ∉ order.map (·.package.name) := by
          intro h
          exact hno (by rw [List.map_append]; exact List.mem_append.mpr (Or.inl h))
        have hnne : n ≠ node := by
          intro h
          subst h
          exact hno (by rw [List.map_append]; simp [hcnname])
        have hnrest : n ∉ rest := fun h => hnq (c2 h)
        by_cases hds : n ∈ graphAdj packages node
        · have h6 := c6 n hds
          have hge : (0 : Int) ≤ (kahnFold (graphAdj packages node) inDeg rest).1 n := by
            rw [c1 n]
            have := hcntkey n hds
            omega
          rcases lt_or_eq_of_le hge with h | h
          · exact h
          · exact absurd (h6 h.symm) hnq
        · have hc0 : (graphAdj packages node).count n = 0 := List.count_eq_zero.mpr hds
          rw [c1 n, hc0]
          have h5 := I5 n hn hno1 (by simp [List.mem_cons, hnne, hnrest])
          omega
      have hI7' : ∀ (i : Nat) (hi : i < (order ++ [cnode]).length) (u : String),
          ((order ++ [cnode]).get ⟨i, hi⟩).package.name ∈ graphAdj packages u →
          ∃ (j : Nat) (hj : j < (order ++ [cnode]).length),
            j < i ∧ ((order ++ [cnode]).get ⟨j, hj⟩).package.name = u := by
        intro i hi u hu
        by_cases hio : i < order.length
        · have hgeti : (order ++ [cnode]).get ⟨i, hi⟩ = order.get ⟨i, hio⟩ := by
            simp only [List.get_eq_getElem]
            exact List.getElem_append_left hio
          rw [hgeti] at hu
          obtain ⟨j, hj, hji, hgj⟩ := I7 i hio u hu
          have hj' : j < (order ++ [cnode]).length := by
            simp only [List.length_append, List.length_singleton]
            omega
          refine ⟨j, hj', hji, ?_⟩
          have hgj' : (order ++ [cnode]).get ⟨j, hj'⟩ = order.get ⟨j, hj⟩ := by
            simp only [List.get_eq_getElem]
            exact List.getElem_append_left hj
          rw [hgj', hgj]
        · have hieq : i = order.length := by
            simp only [List.length_append, List.length_singleton] at hi
            omega
          subst hieq
          have hgeti : (order ++ [cnode]).get ⟨order.length, hi⟩ = cnode := by
            simp only [List.get_eq_getElem]
            rw [List.getElem_append_right (Nat.le_refl _)]
            simp
          rw [hgeti, hcnname] at hu
          have hun : u ∈ packages.map (·.package.name) :=
            graphAdj_mem_name packages u node hu
          have huo : u ∈ order.map (·.package.name) := by
            by_contra huo
            have hune : u ≠ node := fun h => hds_not_node (h ▸ hu)
            have hnodup3 : ((order.map (·.package.name) ++ [node]) ++ [u]).Nodup := by
              rw [List.nodup_append]
              refine ⟨hnodup_on, List.nodup_singleton u, ?_⟩
              intro x hx hx2
              rcases List.mem_singleton.mp hx2 with rfl
              rcases List.mem_append.mp hx with h | h
              · exact huo h
              · exact hune (List.mem_singleton.mp h)
            have hsub3 : ((order.map (·.package.name) ++ [node]) ++ [u])
                ⊆ packages.map (·.package.name) := by
              intro x hx
              rcases List.mem_append.mp hx with h | h
              · exact hsub_on h
              · rcases List.mem_singleton.mp h with rfl
                exact hun
            have h1 := count_flatMap_mono (graphAdj packages) _ _ hnodup3 hsub3 node
            rw [List.flatMap_append, List.flatMap_append, List.count_append,
              List.count_append] at h1
            rw [← inDegreeInit_eq_keys_flat packages hnd node] at h1
            have h2 : 0 < ([u].flatMap (graphAdj packages)).count node := by
              simp only [List.flatMap_cons, List.flatMap_nil, List.append_nil]
              exact List.count_pos_iff.mpr hu
            have h4 := I6 node (List.mem_cons_self node rest)
            rw [I4 node, hofm] at h4
            omega
          rcases List.mem_map.mp huo with ⟨cu, hcu, hcun⟩
          rcases List.mem_iff_get.mp hcu with ⟨⟨j, hj⟩, hgj⟩
          have hj' : j < (order ++ [cnode]).length := by
            simp only [List.length_append, List.length_singleton]
            omega
          refine ⟨j, hj', hj, ?_⟩
          have hgj' : (order ++ [cnode]).get ⟨j, hj'⟩ = order.get ⟨j, hj⟩ := by
            simp only [List.get_eq_getElem]
            exact List.getElem_append_left hj
          rw [hgj', hgj, hcun]
      have hfuel' : packages.length ≤ fuel + (order ++ [cnode]).length := by
        simp only [List.length_append, List.length_singleton]
        omega
      obtain ⟨⟨ext, hext⟩, hc2, hc3, hc4, hc5⟩ := ihf
        (kahnFold (graphAdj packages node) inDeg rest).2
        (kahnFold (graphAdj packages node) inDeg rest).1
        (order ++ [cnode]) hI1' hI2' hI3' hI4' hI5' c4 hI7' hfuel'
      rw [hstep]
      exact ⟨⟨cnode :: ext, by rw [hext]; simp⟩, hc2, hc3, hc4, hc5⟩

theorem resolveDependencies_eq (packages : List Config) :
    resolveDependencies packages
      = (if (kahnOrder packages).length ≠ packages.length then
            kahnOrder packages
              ++ ((graphKeys packages).filter
                    (fun n => !((kahnOrder packages).any
                      (fun cfg => cfg.package.name = n)))).filterMap
                  (nodeMapOf packages)
          else kahnOrder packages).reverse := rfl

theorem graphKeys_eq_names (packages : List Config)
    (hnd : (packages.map (·.package.name)).Nodup) :
    graphKeys packages = packages.map (·.package.name) :=
  List.dedup_eq_self.mpr hnd

theorem kahnOrder_spec (packages : List Config)
    (hnd : (packages.map (·.package.name)).Nodup) :
    ((kahnOrder packages).map (·.package.name)).Nodup
    ∧ (∀ c ∈ kahnOrder packages, c ∈ packages)
    ∧ (∀ (i : Nat) (hi : i < (kahnOrder packages).length) (u : String),
        ((kahnOrder packages).get ⟨i, hi⟩).package.name ∈ graphAdj packages u →
        ∃ (j : Nat) (hj : j < (kahnOrder packages).length),
          j < i ∧ ((kahnOrder packages).get ⟨j, hj⟩).package.name = u)
    ∧ (∀ n ∈ packages.map (·.package.name),
        n ∉ (kahnOrder packages).map (·.package.name) →
        ((kahnOrder packages).flatMap
            (fun c => graphAdj packages c.package.name)).count n
          < inDegreeInit packages n) := by
  have hks := graphKeys_eq_names packages hnd
  have hI1 : (([] : List Config).map (·.package.name)
      ++ (graphKeys packages).filter (fun n => inDegreeInit packages n = 0)).Nodup := by
    simpa using (List.nodup_dedup _).filter _
  have hI2 : ∀ n ∈ (graphKeys packages).filter (fun n => inDegreeInit packages n = 0),
      n ∈ packages.map (·.package.name) := by
    intro n hn
    rw [← hks]
    exact List.mem_of_mem_filter hn
  have hI3 : ∀ c ∈ ([] : List Config), c ∈ packages :=
    fun c hc => absurd hc (List.not_mem_nil c)
  have hI4 : ∀ n, (fun n => (inDegreeInit packages n : Int)) n
      = (inDegreeInit packages n : Int)
        - ((([] : List Config).flatMap
            (fun c => graphAdj packages c.package.name)).count n : Int) := by
    intro n
    simp
  have hI5 : ∀ n ∈ packages.map (·.package.name),
      n ∉ ([] : List Config).map (·.package.name) →
      n ∉ (graphKeys packages).filter (fun n => inDegreeInit packages n = 0) →
      0 < (fun n => (inDegreeInit packages n : Int)) n := by
    intro n hn _ hnq
    have hn' : n ∈ graphKeys packages := by rw [hks]; exact hn
    have hne : ¬(inDegreeInit packages n = 0) := by
      intro h0
      exact hnq (List.mem_filter.mpr ⟨hn', by simp [h0]⟩)
    have hp : 0 < inDegreeInit packages n := Nat.pos_of_ne_zero hne
    show (0 : Int) < (inDegreeInit packages n : Int)
    exact_mod_cast hp
  have hI6 : ∀ n ∈ (graphKeys packages).filter (fun n => inDegreeInit packages n = 0),
      (fun n => (inDegreeInit packages n : Int)) n = 0 := by
    intro n hn
    have h := (List.mem_filter.mp hn).2
    simp only [decide_eq_true_eq] at h
    simp [h]
  have hI7 : ∀ (i : Nat) (hi : i < ([] : List Config).length) (u : String),
      (([] : List Config).get ⟨i, hi⟩).package.name ∈ graphAdj packages u →
      ∃ (j : Nat) (hj : j < ([] : List Config).length),
        j < i ∧ (([] : List Config).get ⟨j, hj⟩).package.name = u := by
    intro i hi
    exact absurd hi (Nat.not_lt_zero i)
  have hfuel : packages.length ≤ (graphKeys packages).length + ([] : List Config).length := by
    rw [hks]
    simp
  obtain ⟨_, h2, h3, h4, h5⟩ := kahnLoop_spec packages hnd (graphKeys packages).length
    ((graphKeys packages).filter (fun n => inDegreeInit packages n = 0))
    (fun n => (inDegreeInit packages n : Int)) [] hI1 hI2 hI3 hI4 hI5 hI6 hI7 hfuel
  exact ⟨h2, h3, h4, h5⟩

theorem names_perm_split (packages : List Config)
    (hnd : (packages.map (·.package.name)).Nodup) :
    (packages.map (·.package.name)).Perm
      ((kahnOrder packages).map (·.package.name)
        ++ (packages.map (·.package.name)).filter
            (fun n => n ∉ (kahnOrder packages).map (·.package.name))) := by
  obtain ⟨hnd1, hmem1, _, _⟩ := kahnOrder_spec packages hnd
  have hnd2 : ((kahnOrder packages).map (·.package.name)
      ++ (packages.map (·.package.name)).filter
          (fun n => n ∉ (kahnOrder packages).map (·.package.name))).Nodup := by
    rw [List.nodup_append]
    refine ⟨hnd1, hnd.filter _, ?_⟩
    intro x hx hx2
    have h := (List.mem_filter.mp hx2).2
    simp only [decide_eq_true_eq] at h
    exact h hx
  refine (List.perm_ext_iff_of_nodup hnd hnd2).mpr ?_
  intro a
  constructor
  · intro ha
    by_cases h : a ∈ (kahnOrder packages).map (·.package.name)
    · exact List.mem_append.mpr (Or.inl h)
    · exact List.mem_append.mpr (Or.inr (List.mem_filter.mpr ⟨ha, by simpa using h⟩))
  · intro ha
    rcases List.mem_append.mp ha with h | h
    · rcases List.mem_map.mp h with ⟨c, hc, rfl⟩
      exact List.mem_map.mpr ⟨c, hmem1 c hc, rfl⟩
    · exact (List.mem_filter.mp h).1

theorem kahnOrder_complete (packages : List Config)
    (hnd : (packages.map (·.package.name)).Nodup)
    (hacyc : ResolvableAcyclic packages) :
    ∀ n ∈ packages.map (·.package.name),
      n ∈ (kahnOrder packages).map (·.package.name) := by
  obtain ⟨rank, hrank⟩ := hacyc
  by_contra hmiss
  push_neg at hmiss
  obtain ⟨n0, hn0, hn0m⟩ := hmiss
  have hMne : (packages.map (·.package.name)).filter
      (fun n => n ∉ (kahnOrder packages).map (·.package.name)) ≠ [] := by
    intro h
    have hm : n0 ∈ (packages.map (·.package.name)).filter
        (fun n => n ∉ (kahnOrder packages).map (·.package.name)) :=
      List.mem_filter.mpr ⟨hn0, by simpa using hn0m⟩
    rw [h] at hm
    exact absurd hm (List.not_mem_nil n0)
  obtain ⟨u, huM, humax⟩ := list_exists_max_image _ rank hMne
  have hu1 := (List.mem_filter.mp huM).1
  have hu2 : u ∉ (kahnOrder packages).map (·.package.name) := by
    have h := (List.mem_filter.mp huM).2
    simpa using h
  have h5 := (kahnOrder_spec packages hnd).2.2.2 u hu1 hu2
  have hofm : (kahnOrder packages).flatMap (fun c => graphAdj packages c.package.name)
      = ((kahnOrder packages).map (·.package.name)).flatMap (graphAdj packages) := by
    rw [List.flatMap_map]
  have hinit : inDegreeInit packages u
      = ((kahnOrder packages).flatMap
          (fun c => graphAdj packages c.package.name)).count u
        + (((packages.map (·.package.name)).filter
            (fun n => n ∉ (kahnOrder packages).map (·.package.name))).flatMap
              (graphAdj packages)).count u := by
    rw [inDegreeInit_eq_keys_flat packages hnd u]
    rw [((names_perm_split packages hnd).flatMap_right (graphAdj packages)).count_eq u]
    rw [List.flatMap_append, List.count_append, hofm]
  have hpos : 0 < (((packages.map (·.package.name)).filter
      (fun n => n ∉ (kahnOrder packages).map (·.package.name))).flatMap
        (graphAdj packages)).count u := by omega
  have humem := List.count_pos_iff.mp hpos
  rcases List.mem_flatMap.mp humem with ⟨v, hvM, huadj⟩
  rcases (graphAdj_edge_spec packages v u).mp huadj with ⟨cfg, hcfg, hvname, hudep, hures⟩
  have h6 : rank u < rank v := by
    have h := hrank cfg hcfg u hudep hures
    rwa [hvname] at h
  have h7 : rank v ≤ rank u := humax v hvM
  omega

theorem kahnOrder_length (packages : List Config)
    (hnd : (packages.map (·.package.name)).Nodup)
    (hacyc : ResolvableAcyclic packages) :
    (kahnOrder packages).length = packages.length := by
  obtain ⟨hnd1, hmem1, _, _⟩ := kahnOrder_spec packages hnd
  have hperm : ((kahnOrder packages).map (·.package.name)).Perm
      (packages.map (·.package.name)) := by
    refine (List.perm_ext_iff_of_nodup hnd1 hnd).mpr ?_
    intro a
    constructor
    · intro ha
      rcases List.mem_map.mp ha with ⟨c, hc, rfl⟩
      exact List.mem_map.mpr ⟨c, hmem1 c hc, rfl⟩
    · intro ha
      exact kahnOrder_complete packages hnd hacyc a ha
  have h := hperm.length_eq
  simpa using h

theorem filterMap_nodeMapOf_names (packages : List Config)
    (hnd : (packages.map (·.package.name)).Nodup) :
    ∀ (l : List Config), (∀ c ∈ l, c ∈ packages) →
    (l.map (·.package.name)).filterMap (nodeMapOf packages) = l := by
  intro l
  induction l with
  | nil => intro _; rfl
  | cons c t ih =>
    intro h
    have h1 := nodeMapOf_self packages hnd c (h c (List.mem_cons_self c t))
    have h2 := ih (fun x hx => h x (List.mem_cons_of_mem c hx))
    simp only [List.map_cons]
    rw [List.filterMap_cons]
    simp [h1, h2]

theorem perm_of_names_perm (packages : List Config) (l : List Config)
    (hnd : (packages.map (·.package.name)).Nodup)
    (hmem : ∀ c ∈ l, c ∈ packages)
    (hperm : (l.map (·.package.name)).Perm (packages.map (·.package.name))) :
    l.Perm packages := by
  have h1 : (l.map (·.package.name)).filterMap (nodeMapOf packages) = l :=
    filterMap_nodeMapOf_names packages hnd l hmem
  have h2 : ((packages.map (·.package.name)).filterMap (nodeMapOf packages)) = packages :=
    filterMap_nodeMapOf_names packages hnd packages (fun c hc => hc)
  have h3 := hperm.filterMap (nodeMapOf packages)
  rwa [h1, h2] at h3

theorem filterMap_nodeMapOf_of_names (packages : List Config)
    (L : List String) (hL : ∀ n ∈ L, n ∈ packages.map (·.package.name)) :
    (L.filterMap (nodeMapOf packages)).map (·.package.name) = L
    ∧ ∀ c ∈ L.filterMap (nodeMapOf packages), c ∈ packages := by
  induction L with
  | nil => exact ⟨rfl, by simp⟩
  | cons n t ih =>
    obtain ⟨c, hc⟩ : ∃ c, nodeMapOf packages n = some c :=
      Option.isSome_iff_exists.mp
        ((nodeMapOf_isSome_iff packages n).mpr (hL n (List.mem_cons_self n t)))
    obtain ⟨hcm, hcn⟩ := nodeMapOf_some packages n c hc
    obtain ⟨ih1, ih2⟩ := ih (fun x hx => hL x (List.mem_cons_of_mem n hx))
    constructor
    · rw [List.filterMap_cons]
      simp [hc, hcn, ih1]
    · intro x hx
      rw [List.filterMap_cons] at hx
      simp only [hc] at hx
      rcases List.mem_cons.mp hx with rfl | hx
      · exact hcm
      · exact ih2 x hx

theorem fallback_filter_eq (packages : List Config)
    (hnd : (packages.map (·.package.name)).Nodup) :
    (graphKeys packages).filter
        (fun n => !((kahnOrder packages).any (fun cfg => cfg.package.name = n)))
      = (packages.map (·.package.name)).filter
          (fun n => n ∉ (kahnOrder packages).map (·.package.name)) := by
  rw [graphKeys_eq_names packages hnd]
  apply List.filter_congr
  intro n _
  by_cases h : n ∈ (kahnOrder packages).map (·.package.name)
  · have ha : (kahnOrder packages).any (fun cfg => cfg.package.name = n) = true := by
      rcases List.mem_map.mp h with ⟨c, hc, rfl⟩
      exact List.any_eq_true.mpr ⟨c, hc, by simp⟩
    simp [ha, h]
  · have ha : (kahnOrder packages).any (fun cfg => cfg.package.name = n) = false := by
      rw [List.any_eq_false]
      intro c hc
      simp only [decide_eq_true_eq]
      intro heq
      exact h (List.mem_map.mpr ⟨c, hc, heq⟩)
    simp [ha, h]

/-- Claim C3: for every input package list with unique package names (the
spec's data model), the resolver terminates — `resolveDependencies` is a
total function whose worklist loop runs on explicit fuel, shown sufficient —
and returns a permutation of its input, whether or not the dependency graph
has self-cycles or multi-node cycles: every input package appears exactly
once, with no crash, no omission and no duplicate. -/
theorem C3_resolver_permutation (packages : List Config)
    (hnd : (packages.map (·.package.name)).Nodup) :
    (resolveDependencies packages).Perm packages := by
  obtain ⟨hnd1, hmem1, _, _⟩ := kahnOrder_spec packages hnd
  rw [resolveDependencies_eq]
  refine (List.reverse_perm _).trans ?_
  by_cases hlen : (kahnOrder packages).length ≠ packages.length
  · rw [if_pos hlen, fallback_filter_eq packages hnd]
    obtain ⟨hf1, hf2⟩ := filterMap_nodeMapOf_of_names packages
      ((packages.map (·.package.name)).filter
        (fun n => n ∉ (kahnOrder packages).map (·.package.name)))
      (fun n hn => List.mem_of_mem_filter hn)
    apply perm_of_names_perm packages _ hnd
    · intro c hc
      rcases List.mem_append.mp hc with h | h
      · exact hmem1 c h
      · exact hf2 c h
    · rw [List.map_append, hf1]
      exact (names_perm_split packages hnd).symm
  · rw [if_neg hlen]
    apply perm_of_names_perm packages _ hnd hmem1
    have hsub : ((kahnOrder packages).map (·.package.name))
        ⊆ packages.map (·.package.name) := by
      intro a ha
      rcases List.mem_map.mp ha with ⟨c, hc, rfl⟩
      exact List.mem_map.mpr ⟨c, hmem1 c hc, rfl⟩
    refine (List.subperm_of_subset hnd1 hsub).perm_of_length_le ?_
    simp only [List.length_map]
    omega

theorem get_reverse_idx (l : List Config) (i j : Nat) (h : i < l.reverse.length)
    (heq : j = l.length - 1 - i) (h2 : j < l.length) :
    l.reverse.get ⟨i, h⟩ = l.get ⟨j, h2⟩ := by
  subst heq
  simp only [List.get_eq_getElem]
  exact List.getElem_reverse (by simpa using h)

/-- Claim C2: for every input package list with unique package names whose
resolvable dependency graph is acyclic (witnessed by a topological ranking),
the build order returned by `resolveDependencies` is dependency-first: every
dependency of the package at position `i` that resolves to a known package is
the name of a package at a strictly earlier position `j < i`. -/
theorem C2_resolver_dependency_first (packages : List Config)
    (hnd : (packages.map (·.package.name)).Nodup)
    (hacyc : ResolvableAcyclic packages) :
    ∀ (i : Nat) (hi : i < (resolveDependencies packages).length) (d : String),
      d ∈ ((resolveDependencies packages).get ⟨i, hi⟩).package.dependencies →
      depResolvable packages d = true →
      ∃ (j : Nat) (hj : j < (resolveDependencies packages).length),
        j < i ∧ ((resolveDependencies packages).get ⟨j, hj⟩).package.name = d := by
  obtain ⟨hnd1, hmem1, hsound, _⟩ := kahnOrder_spec packages hnd
  have hres : resolveDependencies packages = (kahnOrder packages).reverse := by
    rw [resolveDependencies_eq,
      if_neg (not_ne_iff.mpr (kahnOrder_length packages hnd hacyc))]
  rw [hres]
  intro i hi d hd hdres
  have hiL : i < (kahnOrder packages).length := by
    rw [← List.length_reverse]
    exact hi
  have hp : (kahnOrder packages).length - 1 - i < (kahnOrder packages).length := by
    omega
  rw [get_reverse_idx _ i ((kahnOrder packages).length - 1 - i) hi rfl hp] at hd
  have hcmem : (kahnOrder packages).get
      ⟨(kahnOrder packages).length - 1 - i, hp⟩ ∈ packages :=
    hmem1 _ (List.get_mem _ _ _)
  have hdedge : d ∈ graphAdj packages
      ((kahnOrder packages).get
        ⟨(kahnOrder packages).length - 1 - i, hp⟩).package.name := by
    rw [graphAdj_eq packages hnd _ hcmem]
    exact List.mem_filter.mpr ⟨hd, by simpa using hdres⟩
  have hdn : d ∈ packages.map (·.package.name) :=
    (nodeMapOf_isSome_iff packages d).mp (by simpa [depResolvable] using hdres)
  have hdR : d ∈ (kahnOrder packages).map (·.package.name) :=
    kahnOrder_complete packages hnd hacyc d hdn
  rcases List.mem_map.mp hdR with ⟨cd, hcd, hcdn⟩
  rcases List.mem_iff_get.mp hcd with ⟨⟨q, hq⟩, hgq⟩
  have hqedge : ((kahnOrder packages).get ⟨q, hq⟩).package.name
      ∈ graphAdj packages
        ((kahnOrder packages).get
          ⟨(kahnOrder packages).length - 1 - i, hp⟩).package.name := by
    rw [hgq, hcdn]
    exact hdedge
  obtain ⟨j0, hj0, hj0q, hgj0⟩ := hsound q hq _ hqedge
  have hj0p : j0 = (kahnOrder packages).length - 1 - i := by
    have hmap : ((kahnOrder packages).map (·.package.name)).get
        ⟨j0, by simpa using hj0⟩
        = ((kahnOrder packages).map (·.package.name)).get
            ⟨(kahnOrder packages).length - 1 - i, by simpa using hp⟩ := by
      simp only [List.get_eq_getElem, List.getElem_map]
      exact hgj0
    have hfin := (List.Nodup.get_inj_iff hnd1).mp hmap
    simpa using hfin
  have hpq : (kahnOrder packages).length - 1 - i < q := hj0p ▸ hj0q
  have hjres : (kahnOrder packages).length - 1 - q
      < (kahnOrder packages).reverse.length := by
    rw [List.length_reverse]
    omega
  refine ⟨(kahnOrder packages).length - 1 - q, hjres, by omega, ?_⟩
  rw [get_reverse_idx _ _ q hjres (by omega) hq, hgq, hcdn]

/-- Witness for C2 at the spec scenario `util ← core ← app`: the catalog is
acyclic, and in the computed order `core` (position 1) is preceded by its
dependency `util`. -/
theorem C2_resolver_dependency_first_witness :
    (demoChain.map (·.package.name)).Nodup
    ∧ ResolvableAcyclic demoChain
    ∧ ∃ (j : Nat) (hj : j < (resolveDependencies demoChain).length),
        j < 1 ∧ ((resolveDependencies demoChain).get ⟨j, hj⟩).package.name = "util" := by
  have hnd : (demoChain.map (·.package.name)).Nodup := by decide
  have hacyc : ResolvableAcyclic demoChain :=
    ⟨fun n => if n = "util" then 0 else if n = "core" then 1 else 2, by decide⟩
  refine ⟨hnd, hacyc, ?_⟩
  exact C2_resolver_dependency_first demoChain hnd hacyc 1 (by decide) "util" (by decide) (by decide)

/-- Witness for C3 at the two-node cycle `a ↔ b`: the resolver still returns
a permutation of the catalog. -/
theorem C3_resolver_permutation_witness :
    (demoCycle.map (·.package.name)).Nodup
    ∧ (resolveDependencies demoCycle).Perm demoCycle :=
  ⟨by decide, C3_resolver_permutation demoCycle (by decide)⟩
